import Mathlib

/- Verification development for the query-profiling harness in
scripts/run_queries.py: the SQL statement splitter, the execution-plan
distiller, and the query runner.  Each Lean definition is a shallow
embedding of the correspondingly named Python function. -/

namespace RunQueries

/-- ASCII whitespace, matching Python str.isspace and str.strip on the
ASCII range (space, tab, newline, carriage return, vertical tab, form feed). -/
def pyIsSpace (c : Char) : Bool :=
  c = ' ' || c = '\t' || c = '\n' || c = '\r' || c = '\x0b' || c = '\x0c'

/-- Python str.strip: remove leading and trailing whitespace characters. -/
def pyStrip (l : List Char) : List Char :=
  ((l.dropWhile pyIsSpace).reverse.dropWhile pyIsSpace).reverse

/-- One character of the regex class of letters, digits and underscore used
inside a dollar-quoting tag. -/
def tagWordChar (c : Char) : Bool :=
  c.isAlphanum || c = '_'

/-- Match of the dollar-tag regex (dollar, word characters, dollar) at the
start of the text, returning the matched tag.  The greedy star of the
regex is exact here because the word class excludes the dollar sign. -/
def dollarMatch : List Char → Option (List Char)
  | [] => none
  | c :: rest =>
    if c = '$' then
      match rest.drop (rest.takeWhile tagWordChar).length with
      | '$' :: _ => some ('$' :: (rest.takeWhile tagWordChar ++ ['$']))
      | _ => none
    else none

/-- Python text.startswith: the first list is a prefix of the second. -/
def listStartsWith : List Char → List Char → Bool
  | [], _ => true
  | _ :: _, [] => false
  | a :: as, b :: bs => a = b && listStartsWith as bs

/-- The mutable scanner state of _split_sql_statements (lines 28-38). -/
structure SplitSt where
  in_single : Bool
  in_double : Bool
  in_line_comment : Bool
  in_block_comment : Bool
  in_dollar : Option (List Char)
  buf : List Char
  statements : List (List Char)

/-- The initial scanner state. -/
def initSt : SplitSt :=
  ⟨false, false, false, false, none, [], []⟩

/-- Python test "buf and not buf[-1].isspace()" guarding the synthetic
space inserted before a comment opener (lines 70 and 76). -/
def lastNonSpace (b : List Char) : Bool :=
  match b.getLast? with
  | some c => !pyIsSpace c
  | none => false

/-- Handling of a character in plain Normal mode (lines 113-134): quote
openers, the statement terminator, and regular text. -/
def splitStepNormal (s : SplitSt) (ch : Char) (rest : List Char) :
    SplitSt × List Char :=
  if ch = '\'' then ({ s with in_single := true, buf := s.buf ++ [ch] }, rest)
  else if ch = '"' then ({ s with in_double := true, buf := s.buf ++ [ch] }, rest)
  else if ch = ';' then
    let st := pyStrip s.buf
    let out := if st = [] then s.statements else s.statements ++ [st]
    ({ s with buf := [], statements := out }, rest)
  else ({ s with buf := s.buf ++ [ch] }, rest)

/-- One iteration of the scanning loop of _split_sql_statements
(lines 40-134): handles the current character, with the same one- or
two-character lookahead and dollar-tag matching as the source, and returns
the new state together with the remaining text. -/
def splitStep (s : SplitSt) (text : List Char) : SplitSt × List Char :=
  match text with
  | [] => (s, [])
  | ch :: rest =>
    if s.in_line_comment then
      (if ch = '\n' then { s with in_line_comment := false } else s, rest)
    else if s.in_block_comment then
      match text with
      | '*' :: '/' :: rest2 => ({ s with in_block_comment := false }, rest2)
      | _ => (s, rest)
    else
      match s.in_dollar with
      | some tag =>
        if listStartsWith tag text then
          ({ s with buf := s.buf ++ tag, in_dollar := none }, text.drop tag.length)
        else
          ({ s with buf := s.buf ++ [ch] }, rest)
      | none =>
        if !s.in_single && !s.in_double then
          match text with
          | '-' :: '-' :: rest2 =>
            let b := if lastNonSpace s.buf then s.buf ++ [' '] else s.buf
            ({ s with buf := b, in_line_comment := true }, rest2)
          | '/' :: '*' :: rest2 =>
            let b := if lastNonSpace s.buf then s.buf ++ [' '] else s.buf
            ({ s with buf := b, in_block_comment := true }, rest2)
          | _ =>
            match dollarMatch text with
            | some tag =>
              ({ s with in_dollar := some tag, buf := s.buf ++ tag }, text.drop tag.length)
            | none => splitStepNormal s ch rest
        else if s.in_single then
          match text with
          | '\'' :: '\'' :: rest2 => ({ s with buf := s.buf ++ ['\'', '\''] }, rest2)
          | _ =>
            if ch = '\'' then ({ s with in_single := false, buf := s.buf ++ [ch] }, rest)
            else ({ s with buf := s.buf ++ [ch] }, rest)
        else
          match text with
          | '"' :: '"' :: rest2 => ({ s with buf := s.buf ++ ['"', '"'] }, rest2)
          | _ =>
            if ch = '"' then ({ s with in_double := false, buf := s.buf ++ [ch] }, rest)
            else ({ s with buf := s.buf ++ [ch] }, rest)

/-- Final flush of the buffer at end of input (lines 136-139). -/
def finalizeSplit (s : SplitSt) : List (List Char) :=
  if pyStrip s.buf = [] then s.statements else s.statements ++ [pyStrip s.buf]

/-- The scanning loop, with fuel.  One unit of fuel is spent per loop
iteration; every iteration of the source loop consumes at least one
character of the text, so fuel equal to the length of the text reproduces
the source loop exactly. -/
def splitLoop : Nat → SplitSt → List Char → List (List Char)
  | _, s, [] => finalizeSplit s
  | 0, s, _ :: _ => finalizeSplit s
  | fuel + 1, s, ch :: rest =>
    let p := splitStep s (ch :: rest)
    splitLoop fuel p.1 p.2

/-- The scanning loop returning the final scanner state instead of the
flushed statement list. -/
def splitRun : Nat → SplitSt → List Char → SplitSt
  | _, s, [] => s
  | 0, s, _ :: _ => s
  | fuel + 1, s, ch :: rest =>
    let p := splitStep s (ch :: rest)
    splitRun fuel p.1 p.2

/-- _split_sql_statements (lines 27-139). -/
def _split_sql_statements (text : String) : List String :=
  (splitLoop text.toList.length initSt text.toList).map (fun l => String.mk l)

/-- JSON values, as handed to the distiller by json.loads via psycopg.
Python None is JVal.null; objects are ordered association lists, matching
the insertion-ordered dicts of Python. -/
inductive JVal where
  | null : JVal
  | bool : Bool → JVal
  | num : Rat → JVal
  | str : String → JVal
  | arr : List JVal → JVal
  | obj : List (String × JVal) → JVal

/-- A JSON object (a Python dict). -/
abbrev JObj := List (String × JVal)

/-- Python dict.get key: the value stored at the first matching key. -/
def getField : JObj → String → Option JVal
  | [], _ => none
  | (k, v) :: rest, key => if k = key then some v else getField rest key

/-- _add_if_present (lines 174-178): copy node[key] to payload[out_key]
only when the value is present and not None.  The source assigns into a
dict whose keys never collide in its uses, so appending models it. -/
def _add_if_present (payload : JObj) (node : JObj) (key out_key : String) : JObj :=
  match getField node key with
  | some JVal.null => payload
  | some v => payload ++ [(out_key, v)]
  | none => payload

/-- The per-node record built by _extract_plan_nodes (lines 181-203):
node_type and depth always, then the allow-listed fields when present. -/
def extractItem (node : JObj) (depth : Nat) : JObj :=
  let item : JObj := [("node_type", (getField node "Node Type").getD JVal.null),
                      ("depth", JVal.num depth)]
  let item := _add_if_present item node "Relation Name" "relation"
  let item := _add_if_present item node "Index Name" "index"
  let item := _add_if_present item node "Actual Rows" "actual_rows"
  let item := _add_if_present item node "Actual Loops" "actual_loops"
  let item := _add_if_present item node "Actual Total Time" "actual_total_time_ms"
  let item := _add_if_present item node "Plan Rows" "plan_rows"
  let item := _add_if_present item node "Plan Width" "plan_width"
  let item := _add_if_present item node "Total Cost" "plan_total_cost"
  let item := _add_if_present item node "Filter" "filter"
  let item := _add_if_present item node "Index Cond" "index_cond"
  let item := _add_if_present item node "Recheck Cond" "recheck_cond"
  let item := _add_if_present item node "Hash Cond" "hash_cond"
  let item := _add_if_present item node "Merge Cond" "merge_cond"
  let item := _add_if_present item node "Join Filter" "join_filter"
  let item := _add_if_present item node "Sort Key" "sort_key"
  let item := _add_if_present item node "Group Key" "group_key"
  let item := _add_if_present item node "Shared Hit Blocks" "shared_hit_blocks"
  let item := _add_if_present item node "Shared Read Blocks" "shared_read_blocks"
  let item := _add_if_present item node "Shared Dirtied Blocks" "shared_dirtied_blocks"
  let item := _add_if_present item node "Shared Written Blocks" "shared_written_blocks"
  let item := _add_if_present item node "Temp Read Blocks" "temp_read_blocks"
  let item := _add_if_present item node "Temp Written Blocks" "temp_written_blocks"
  item

/-- The dict-valued children iterated by lines 206-208: the Plans field
when it is a list, keeping only dict entries.  A missing or None Plans
yields no children, as in the source. -/
def planChildren (node : JObj) : List JObj :=
  let children := match getField node "Plans" with
    | some (JVal.arr l) => l
    | _ => []
  children.filterMap (fun c => match c with | JVal.obj fs => some fs | _ => none)

theorem getField_sizeOf {fields : JObj} {key : String} {v : JVal}
    (h : getField fields key = some v) : sizeOf v < sizeOf fields := by
  induction fields with
  | nil => simp [getField] at h
  | cons p rest ih =>
    obtain ⟨k, w⟩ := p
    by_cases hk : k = key
    · simp [getField, hk] at h
      subst h
      simp
      omega
    · simp [getField, hk] at h
      have := ih h
      simp
      omega

theorem planChildren_sizeOf {node : JObj} {fs : JObj}
    (h : fs ∈ planChildren node) : sizeOf fs < sizeOf node := by
  unfold planChildren at h
  simp only [List.mem_filterMap] at h
  obtain ⟨c, hc, hcv⟩ := h
  have hfs : c = JVal.obj fs := by
    cases c <;> simp_all
  subst hfs
  rcases hlook : getField node "Plans" with _ | w
  · rw [hlook] at hc
    simp at hc
  · rw [hlook] at hc
    have hw := getField_sizeOf hlook
    cases w <;> simp at hc
    case arr l =>
      have h1 : sizeOf (JVal.obj fs) < sizeOf l := List.sizeOf_lt_of_mem hc
      have h2 : sizeOf fs < sizeOf (JVal.obj fs) := by simp
      have h3 : sizeOf l < sizeOf (JVal.arr l) := by simp
      omega

/-- _extract_plan_nodes (lines 180-208).  The source appends each visited
item to an output list, parent first and then the children in order; the
returned list here is the sequence of items appended. -/
def _extract_plan_nodes (node : JObj) (depth : Nat) : List JObj :=
  extractItem node depth ::
    ((planChildren node).attach.map
      (fun c => _extract_plan_nodes c.1 (depth + 1))).flatten
termination_by sizeOf node
decreasing_by exact planChildren_sizeOf c.2

/-- Unfolding equation for _extract_plan_nodes without the termination
bookkeeping. -/
theorem extract_plan_nodes_eq (node : JObj) (depth : Nat) :
    _extract_plan_nodes node depth =
      extractItem node depth ::
        ((planChildren node).map (fun c => _extract_plan_nodes c (depth + 1))).flatten := by
  rw [_extract_plan_nodes]
  rw [List.attach_map_val (planChildren node)
    (fun c => _extract_plan_nodes c (depth + 1))]

/-- The number of dict nodes of a plan tree, counted through the same
Plans traversal as the extractor. -/
def planSize (node : JObj) : Nat :=
  1 + ((planChildren node).attach.map (fun c => planSize c.1)).sum
termination_by sizeOf node
decreasing_by exact planChildren_sizeOf c.2

/-- Unfolding equation for planSize. -/
theorem planSize_eq (node : JObj) :
    planSize node = 1 + ((planChildren node).map planSize).sum := by
  rw [planSize]
  rw [List.attach_map_val (planChildren node) planSize]

/-- _summarize_plan (lines 164-171).  Python returns None both for a
missing key and a null value; both are JVal.null here, matching what the
JSON writer persists. -/
def _summarize_plan (plan : JObj) : JVal × JVal × JVal :=
  let planning_time := (getField plan "Planning Time").getD JVal.null
  let execution_time := (getField plan "Execution Time").getD JVal.null
  let top_rows := match getField plan "Plan" with
    | some (JVal.obj fs) => (getField fs "Actual Rows").getD JVal.null
    | _ => JVal.null
  (planning_time, execution_time, top_rows)

/-- _distill_plan (lines 211-222). -/
def _distill_plan (plan : JObj) : JObj :=
  let s := _summarize_plan plan
  let nodes := match getField plan "Plan" with
    | some (JVal.obj fs) => _extract_plan_nodes fs 0
    | _ => []
  [("planning_time_ms", s.1), ("execution_time_ms", s.2.1),
   ("top_actual_rows", s.2.2),
   ("plan_nodes", JVal.arr (nodes.map JVal.obj))]

/-- QueryResult (lines 16-24).  Optional floats are JSON values here, as
they are copied verbatim from the distilled plan into the summary. -/
structure QueryResult where
  query_index : Nat
  query : String
  plan_file : String
  planning_time_ms : JVal
  execution_time_ms : JVal
  client_time_ms : Rat
  top_actual_rows : JVal

/-- Python format idx:03d for a nonnegative index: zero-pad to width 3. -/
def pad3 (n : Nat) : String :=
  let s := toString n
  if s.length < 3 then String.mk (List.replicate (3 - s.length) '0') ++ s else s

/-- The deterministic plan artifact filename of line 252. -/
def planFileName (idx : Nat) : String :=
  "query_" ++ pad3 idx ++ "_plan.json"

/-- _iter_queries (lines 225-230): the split statements, keeping only
those with nonempty strip. -/
def _iter_queries (text : String) : List String :=
  (_split_sql_statements text).filter (fun st => !(pyStrip st.toList).isEmpty)

/-- The per-statement loop of _run_queries (lines 247-270), with the
database and the wall clock abstracted as oracles: db idx q is the raw
plan returned by _run_explain for the idx-th statement, or the error it
raises; clock idx is the measured client time.  Returns the plan
artifacts written so far (in write order) and either the accumulated
results or the first propagated error. -/
def runLoop (db : Nat → String → Except String JObj) (clock : Nat → Rat) :
    Nat → List String → List (String × JObj) → List QueryResult →
    List (String × JObj) × Except String (List QueryResult)
  | _, [], files, results => (files, Except.ok results)
  | idx, q :: rest, files, results =>
    match db idx q with
    | Except.error e => (files, Except.error e)
    | Except.ok raw_plan =>
      let distilled := _distill_plan raw_plan
      let fname := planFileName idx
      let res : QueryResult :=
        ⟨idx, q, fname,
         (getField distilled "planning_time_ms").getD JVal.null,
         (getField distilled "execution_time_ms").getD JVal.null,
         clock idx,
         (getField distilled "top_actual_rows").getD JVal.null⟩
      runLoop db clock (idx + 1) rest (files ++ [(fname, distilled)]) (results ++ [res])

/-- _run_queries (lines 233-271): enumerate the statements from 1. -/
def _run_queries (db : Nat → String → Except String JObj) (clock : Nat → Rat)
    (stmts : List String) :
    List (String × JObj) × Except String (List QueryResult) :=
  runLoop db clock 1 stmts [] []

/-- One line of the summary file (lines 277-287). -/
def summaryLine (r : QueryResult) : JObj :=
  [("query_index", JVal.num r.query_index), ("query", JVal.str r.query),
   ("plan_file", JVal.str r.plan_file), ("planning_time_ms", r.planning_time_ms),
   ("execution_time_ms", r.execution_time_ms),
   ("client_time_ms", JVal.num r.client_time_ms),
   ("top_actual_rows", r.top_actual_rows)]

/-- _write_summary (lines 274-288): one record per result, in order. -/
def _write_summary (results : List QueryResult) : List JObj :=
  results.map summaryLine

/-- The observable outcome of main (lines 291-330): the plan artifacts on
disk, the summary contents when one was written, and the propagated error
if the run aborted. -/
structure RunOutput where
  files : List (String × JObj)
  summary : Option (List JObj)
  failure : Option String

/-- main (lines 316-326): split the input, run the statements, and write
the summary only after _run_queries has returned all results.  An error
propagates as an unhandled exception: no summary is produced and the
artifacts already written stay on disk. -/
def main_model (db : Nat → String → Except String JObj) (clock : Nat → Rat)
    (sql_text : String) : RunOutput :=
  match _run_queries db clock (_iter_queries sql_text) with
  | (files, Except.ok results) => ⟨files, some (_write_summary results), none⟩
  | (files, Except.error e) => ⟨files, none, some e⟩

/-! Good statements: nonempty and equal to their own strip. -/

def goodStmt (l : List Char) : Prop :=
  l ≠ [] ∧ pyStrip l = l

/-! Concrete inputs used by the claims about the splitter. -/

def sqlQuoteEx : List Char :=
  ['S','E','L','E','C','T',' ','\'','s','e','m','i',';','c','o','l','o','n','\'',';']

def sqlQuoteOut : List Char :=
  ['S','E','L','E','C','T',' ','\'','s','e','m','i',';','c','o','l','o','n','\'']

def sqlDollarEx : String := "SELECT $$a;b$$;"

def sqlDollarOut : String := "SELECT $$a;b$$"

def stmtSimple : String := "SELECT 1"

def sqlSimpleEx : String := "SELECT 1;"

def sqlBlockEx : String := "a/*mid;*/b;"

def sqlBlockOut : String := "a b"

def sqlLineEx : String := "x --c;\ny;"

def sqlLineOut : String := "x y"

/-- Python str.strip on strings. -/
def pyStripStr (s : String) : String := String.mk (pyStrip s.toList)

/-- The value _add_if_present copies for a looked-up field: present and
non-null values pass through, a missing key or a None value yields
nothing.  Proof-side helper. -/
def presentVal : Option JVal → Option JVal
  | some JVal.null => none
  | some v => some v
  | none => none

/-- The allow-list of (source field, output field) pairs copied per node
by lines 182-203. -/
def allowPairs : List (String × String) :=
  [("Relation Name", "relation"), ("Index Name", "index"),
   ("Actual Rows", "actual_rows"), ("Actual Loops", "actual_loops"),
   ("Actual Total Time", "actual_total_time_ms"), ("Plan Rows", "plan_rows"),
   ("Plan Width", "plan_width"), ("Total Cost", "plan_total_cost"),
   ("Filter", "filter"), ("Index Cond", "index_cond"),
   ("Recheck Cond", "recheck_cond"), ("Hash Cond", "hash_cond"),
   ("Merge Cond", "merge_cond"), ("Join Filter", "join_filter"),
   ("Sort Key", "sort_key"), ("Group Key", "group_key"),
   ("Shared Hit Blocks", "shared_hit_blocks"),
   ("Shared Read Blocks", "shared_read_blocks"),
   ("Shared Dirtied Blocks", "shared_dirtied_blocks"),
   ("Shared Written Blocks", "shared_written_blocks"),
   ("Temp Read Blocks", "temp_read_blocks"),
   ("Temp Written Blocks", "temp_written_blocks")]

/-! Concrete fixtures used by witnesses. -/

def root0 : JObj := [("Node Type", JVal.str "Seq Scan")]

def plan0 : JObj := [("Plan", JVal.obj root0)]

def dbOk : Nat → String → Except String JObj := fun _ _ => Except.ok []

def dbFailSecond : Nat → String → Except String JObj :=
  fun i _ => if i = 1 then Except.ok [] else Except.error "boom"

def clock0 : Nat → Rat := fun _ => 0

def filesW : List (String × JObj) := [(planFileName 1, _distill_plan [])]

def resultsW : List QueryResult :=
  [⟨1, stmtSimple, planFileName 1, JVal.null, JVal.null, 0, JVal.null⟩]

/-! A character-at-a-time reformulation of the scanner, used to settle the
split-join-resplit property.  The lookahead of the source loop is replaced
by explicit pending state: a dash or slash that may open a comment, the
word characters collected after a dollar sign, a quote that may be doubled
or may close, a star that may close a block comment, and the number of
characters of the closing dollar tag matched so far. -/

inductive Pend1 where
  | none0 : Pend1
  | dash : Pend1
  | slash : Pend1
  | tagStart : List Char → Pend1

inductive Mode1 where
  | normal : Pend1 → Mode1
  | single : Bool → Mode1
  | double : Bool → Mode1
  | lineC : Mode1
  | blockC : Bool → Mode1
  | dollar : List Char → Nat → Mode1

structure St1 where
  mode : Mode1
  buf : List Char
  stmts : List (List Char)

/-- The synthetic space inserted before a comment opener. -/
def synth (b : List Char) : List Char :=
  if lastNonSpace b then b ++ [' '] else b

/-- Handling of one character from plain Normal mode with no pending
state, after any pending characters have been resolved into the buffer. -/
def normalFresh (b : List Char) (S : List (List Char)) (c : Char) : St1 :=
  if c = '-' then ⟨Mode1.normal Pend1.dash, b, S⟩
  else if c = '/' then ⟨Mode1.normal Pend1.slash, b, S⟩
  else if c = '$' then ⟨Mode1.normal (Pend1.tagStart []), b, S⟩
  else if c = '\'' then ⟨Mode1.single false, b ++ [c], S⟩
  else if c = '"' then ⟨Mode1.double false, b ++ [c], S⟩
  else if c = ';' then
    ⟨Mode1.normal Pend1.none0, [],
      if pyStrip b = [] then S else S ++ [pyStrip b]⟩
  else ⟨Mode1.normal Pend1.none0, b ++ [c], S⟩

/-- One character of scanning. -/
def stepA (σ : St1) (c : Char) : St1 :=
  match σ with
  | ⟨Mode1.normal Pend1.none0, b, S⟩ => normalFresh b S c
  | ⟨Mode1.normal Pend1.dash, b, S⟩ =>
    if c = '-' then ⟨Mode1.lineC, synth b, S⟩
    else normalFresh (b ++ ['-']) S c
  | ⟨Mode1.normal Pend1.slash, b, S⟩ =>
    if c = '*' then ⟨Mode1.blockC false, synth b, S⟩
    else normalFresh (b ++ ['/']) S c
  | ⟨Mode1.normal (Pend1.tagStart ws), b, S⟩ =>
    if tagWordChar c then ⟨Mode1.normal (Pend1.tagStart (ws ++ [c])), b, S⟩
    else if c = '$' then
      ⟨Mode1.dollar ('$' :: ws ++ ['$']) 0, b ++ ('$' :: ws ++ ['$']), S⟩
    else normalFresh (b ++ '$' :: ws) S c
  | ⟨Mode1.single false, b, S⟩ =>
    if c = '\'' then ⟨Mode1.single true, b, S⟩
    else ⟨Mode1.single false, b ++ [c], S⟩
  | ⟨Mode1.single true, b, S⟩ =>
    if c = '\'' then ⟨Mode1.single false, b ++ ['\'', '\''], S⟩
    else normalFresh (b ++ ['\'']) S c
  | ⟨Mode1.double false, b, S⟩ =>
    if c = '"' then ⟨Mode1.double true, b, S⟩
    else ⟨Mode1.double false, b ++ [c], S⟩
  | ⟨Mode1.double true, b, S⟩ =>
    if c = '"' then ⟨Mode1.double false, b ++ ['"', '"'], S⟩
    else normalFresh (b ++ ['"']) S c
  | ⟨Mode1.lineC, b, S⟩ =>
    if c = '\n' then ⟨Mode1.normal Pend1.none0, b, S⟩ else ⟨Mode1.lineC, b, S⟩
  | ⟨Mode1.blockC false, b, S⟩ =>
    if c = '*' then ⟨Mode1.blockC true, b, S⟩ else ⟨Mode1.blockC false, b, S⟩
  | ⟨Mode1.blockC true, b, S⟩ =>
    if c = '/' then ⟨Mode1.normal Pend1.none0, b, S⟩
    else if c = '*' then ⟨Mode1.blockC true, b, S⟩
    else ⟨Mode1.blockC false, b, S⟩
  | ⟨Mode1.dollar tag m, b, S⟩ =>
    if tag.get? m = some c then
      (if m + 1 = tag.length then ⟨Mode1.normal Pend1.none0, b ++ tag, S⟩
       else ⟨Mode1.dollar tag (m + 1), b, S⟩)
    else
      (if tag.get? 0 = some c then ⟨Mode1.dollar tag 1, b ++ tag.take m, S⟩
       else ⟨Mode1.dollar tag 0, b ++ tag.take m ++ [c], S⟩)

/-- The characters consumed but not yet placed in the buffer. -/
def heldOf : Mode1 → List Char
  | Mode1.normal Pend1.none0 => []
  | Mode1.normal Pend1.dash => ['-']
  | Mode1.normal Pend1.slash => ['/']
  | Mode1.normal (Pend1.tagStart ws) => '$' :: ws
  | Mode1.single pq => if pq then ['\''] else []
  | Mode1.double pq => if pq then ['"'] else []
  | Mode1.lineC => []
  | Mode1.blockC _ => []
  | Mode1.dollar tag m => tag.take m

/-- End-of-input flush for the character automaton. -/
def finA (σ : St1) : List (List Char) :=
  if pyStrip (σ.buf ++ heldOf σ.mode) = [] then σ.stmts
  else σ.stmts ++ [pyStrip (σ.buf ++ heldOf σ.mode)]

def initA : St1 := ⟨Mode1.normal Pend1.none0, [], []⟩

/-- A well-formed dollar-quoting tag: a dollar, word characters, a dollar. -/
def tagShape (tag : List Char) : Prop :=
  ∃ ws, (∀ c ∈ ws, tagWordChar c = true) ∧ tag = '$' :: ws ++ ['$']

/-- Python semicolon join, at the character level. -/
def joinSemiL : List (List Char) → List Char
  | [] => []
  | [s] => s
  | s :: rest => s ++ ';' :: joinSemiL rest

/-- Python semicolon join of statements. -/
def joinSemi (l : List String) : String :=
  String.mk (joinSemiL (l.map String.toList))

/-- Balanced input: the scan ends with every quote, comment, and
dollar-quoted region closed. -/
def balancedSql (text : String) : Prop :=
  (splitRun text.toList.length initSt text.toList).in_single = false ∧
  (splitRun text.toList.length initSt text.toList).in_double = false ∧
  (splitRun text.toList.length initSt text.toList).in_line_comment = false ∧
  (splitRun text.toList.length initSt text.toList).in_block_comment = false ∧
  (splitRun text.toList.length initSt text.toList).in_dollar = none

/-- Prefixing already-emitted statements onto an automaton state. -/
def shiftSt (S : List (List Char)) (σ : St1) : St1 :=
  ⟨σ.mode, σ.buf, S ++ σ.stmts⟩

/-- The simulation relation between a state of the source loop, the
remaining text, and a state of the character automaton.  Pending state of
the automaton corresponds to characters the source loop has already placed
in its buffer (or consumed) thanks to its lookahead, with a side condition
recording what that lookahead established about the remaining text. -/
inductive Rel : SplitSt → List Char → St1 → Prop where
  | relNone (b : List Char) (S : List (List Char)) (rem : List Char) :
      Rel ⟨false, false, false, false, none, b, S⟩ rem
        ⟨Mode1.normal Pend1.none0, b, S⟩
  | relDash (b : List Char) (S : List (List Char)) (rem : List Char)
      (h : rem.head? ≠ some '-') :
      Rel ⟨false, false, false, false, none, b ++ ['-'], S⟩ rem
        ⟨Mode1.normal Pend1.dash, b, S⟩
  | relSlash (b : List Char) (S : List (List Char)) (rem : List Char)
      (h : rem.head? ≠ some '*') :
      Rel ⟨false, false, false, false, none, b ++ ['/'], S⟩ rem
        ⟨Mode1.normal Pend1.slash, b, S⟩
  | relTag (b : List Char) (S : List (List Char)) (rem : List Char)
      (ws : List Char) (hws : ∀ c ∈ ws, tagWordChar c = true)
      (hmatch : dollarMatch ('$' :: ws ++ rem) = none) :
      Rel ⟨false, false, false, false, none, b ++ '$' :: ws, S⟩ rem
        ⟨Mode1.normal (Pend1.tagStart ws), b, S⟩
  | relSingle (b : List Char) (S : List (List Char)) (rem : List Char) :
      Rel ⟨true, false, false, false, none, b, S⟩ rem ⟨Mode1.single false, b, S⟩
  | relSingleP (b : List Char) (S : List (List Char)) (rem : List Char)
      (h : rem.head? ≠ some '\'') :
      Rel ⟨false, false, false, false, none, b ++ ['\''], S⟩ rem
        ⟨Mode1.single true, b, S⟩
  | relDouble (b : List Char) (S : List (List Char)) (rem : List Char) :
      Rel ⟨false, true, false, false, none, b, S⟩ rem ⟨Mode1.double false, b, S⟩
  | relDoubleP (b : List Char) (S : List (List Char)) (rem : List Char)
      (h : rem.head? ≠ some '"') :
      Rel ⟨false, false, false, false, none, b ++ ['"'], S⟩ rem
        ⟨Mode1.double true, b, S⟩
  | relLine (b : List Char) (S : List (List Char)) (rem : List Char) :
      Rel ⟨false, false, true, false, none, b, S⟩ rem ⟨Mode1.lineC, b, S⟩
  | relBlock (b : List Char) (S : List (List Char)) (rem : List Char) :
      Rel ⟨false, false, false, true, none, b, S⟩ rem ⟨Mode1.blockC false, b, S⟩
  | relBlockStar (b : List Char) (S : List (List Char)) (rem : List Char)
      (h : rem.head? ≠ some '/') :
      Rel ⟨false, false, false, true, none, b, S⟩ rem ⟨Mode1.blockC true, b, S⟩
  | relDollar (b : List Char) (S : List (List Char)) (rem : List Char)
      (tag : List Char) (m : Nat) (hshape : tagShape tag) (hm : m < tag.length)
      (hpok : m ≠ 0 → listStartsWith tag (tag.take m ++ rem) = false) :
      Rel ⟨false, false, false, false, some tag, b ++ tag.take m, S⟩ rem
        ⟨Mode1.dollar tag m, b, S⟩

/-- Modes whose pending characters resolve into the buffer on a semicolon
or at end of input: plain Normal with any pending lookahead, or a quote
mode holding a possibly-closing quote. -/
def resolvable : Mode1 → Bool
  | Mode1.normal _ => true
  | Mode1.single pq => pq
  | Mode1.double pq => pq
  | _ => false

/-- Modes other than the two comment modes. -/
def modeOK : Mode1 → Bool
  | Mode1.lineC => false
  | Mode1.blockC _ => false
  | _ => true

/-- The mode reached when the current effective buffer is rescanned from a
fresh state: comment content never enters the buffer, so the comment modes
project to plain Normal mode. -/
def reproM : Mode1 → Mode1
  | Mode1.lineC => Mode1.normal Pend1.none0
  | Mode1.blockC _ => Mode1.normal Pend1.none0
  | m => m

/-- The effective buffer of an automaton state: buffered characters plus
the consumed-but-pending characters of the mode. -/
def effBuf (σ : St1) : List Char :=
  σ.buf ++ heldOf σ.mode

/-- A statement that rescans cleanly: feeding it to a fresh scanner emits
no statement and ends in a resolvable mode whose effective buffer strips
back to the statement itself. -/
def refeeds (st : List Char) : Prop :=
  ∃ m b, resolvable m = true ∧
    List.foldl stepA initA st = ⟨m, b, []⟩ ∧
    pyStrip (b ++ heldOf m) = st

/-- States produced by rescanning an effective buffer: never inside a
comment, and a pending dollar-tag prefix consists of word characters. -/
def stateOK (σ : St1) : Prop :=
  modeOK σ.mode = true ∧
  (∀ ws, σ.mode = Mode1.normal (Pend1.tagStart ws) → ∀ u ∈ ws, tagWordChar u = true) ∧
  (∀ tag mm, σ.mode = Mode1.dollar tag mm → tagShape tag)

/-- The rescanning invariant of a scan state: rescanning the effective
buffer from a fresh state stays within rescan states, emits nothing, and
reproduces the buffer and the projected mode; and every statement emitted
so far is trimmed, nonempty, and rescans cleanly. -/
def Inv (σ : St1) : Prop :=
  (∀ k, stateOK (List.foldl stepA initA ((effBuf σ).take k))) ∧
  List.foldl stepA initA (effBuf σ) = ⟨reproM σ.mode, σ.buf, []⟩ ∧
  (∀ st ∈ σ.stmts, goodStmt st ∧ refeeds st)

/-! Helper lemmas about Python strip. -/

theorem head?_dropWhile_false {p : Char → Bool} {l : List Char} {c : Char}
    {cs : List Char} (h : l.dropWhile p = c :: cs) : p c = false := by
  have := List.head?_dropWhile_not p l
  rw [h] at this
  simpa using this

theorem getLast?_dropWhile {p : Char → Bool} {l : List Char}
    (h : l.dropWhile p ≠ []) : (l.dropWhile p).getLast? = l.getLast? := by
  induction l with
  | nil => simp at h
  | cons a as ih =>
    by_cases hp : p a
    · rw [List.dropWhile_cons_of_pos hp] at h ⊢
      rw [ih h]
      cases as with
      | nil => simp [List.dropWhile] at h
      | cons x xs => rw [List.getLast?_cons_cons]
    · rw [List.dropWhile_cons_of_neg hp]

/-- A list whose first and last characters are not whitespace is its own
strip. -/
theorem pyStrip_eq_self {x : List Char}
    (hhead : ∀ c, x.head? = some c → pyIsSpace c = false)
    (hlast : ∀ c, x.getLast? = some c → pyIsSpace c = false) :
    pyStrip x = x := by
  unfold pyStrip
  have h1 : x.dropWhile pyIsSpace = x := by
    cases x with
    | nil => rfl
    | cons c cs => exact List.dropWhile_cons_of_neg (by simp [hhead c rfl])
  rw [h1]
  have h2 : x.reverse.dropWhile pyIsSpace = x.reverse := by
    cases hx : x.reverse with
    | nil => rfl
    | cons c cs =>
      have hc : x.reverse.head? = some c := by rw [hx]; rfl
      rw [List.head?_reverse] at hc
      exact List.dropWhile_cons_of_neg (by simp [hlast c hc])
  rw [h2, List.reverse_reverse]

theorem pyStrip_head_false {l : List Char} {c : Char}
    (h : (pyStrip l).head? = some c) : pyIsSpace c = false := by
  unfold pyStrip at h
  rw [List.head?_reverse] at h
  have hne : (l.dropWhile pyIsSpace).reverse.dropWhile pyIsSpace ≠ [] := by
    intro hnil
    rw [hnil] at h
    simp at h
  rw [getLast?_dropWhile hne, List.getLast?_reverse] at h
  cases hA : l.dropWhile pyIsSpace with
  | nil => rw [hA] at h; simp at h
  | cons a as =>
    rw [hA] at h
    simp at h
    subst h
    exact head?_dropWhile_false hA

theorem pyStrip_last_false {l : List Char} {c : Char}
    (h : (pyStrip l).getLast? = some c) : pyIsSpace c = false := by
  unfold pyStrip at h
  rw [List.getLast?_reverse] at h
  cases hB : (l.dropWhile pyIsSpace).reverse.dropWhile pyIsSpace with
  | nil => rw [hB] at h; simp at h
  | cons b bs =>
    rw [hB] at h
    simp at h
    subst h
    exact head?_dropWhile_false hB

theorem pyStrip_idem (l : List Char) : pyStrip (pyStrip l) = pyStrip l := by
  apply pyStrip_eq_self
  · intro c hc
    exact pyStrip_head_false hc
  · intro c hc
    exact pyStrip_last_false hc

/-! The master step lemma: a scanning step either leaves the emitted
statement list unchanged, or flushes in plain Normal mode at a semicolon. -/

theorem splitStep_statements_spec (s : SplitSt) (text : List Char) :
    (splitStep s text).1.statements = s.statements ∨
    (s.in_single = false ∧ s.in_double = false ∧ s.in_line_comment = false ∧
      s.in_block_comment = false ∧ s.in_dollar = none ∧ text.head? = some ';' ∧
      pyStrip s.buf ≠ [] ∧
      (splitStep s text).1.statements = s.statements ++ [pyStrip s.buf]) := by
  obtain ⟨sg, dbl, lc, bc, dl, buf, stmts⟩ := s
  cases text with
  | nil => left; rfl
  | cons ch rest =>
    cases lc
    case true =>
      left
      simp only [splitStep, if_true]
      split <;> rfl
    case false =>
    cases bc
    case true =>
      left
      simp only [splitStep]
      norm_num
      split <;> rfl
    case false =>
    cases dl
    case some tag =>
      left
      simp only [splitStep]
      norm_num
      split <;> rfl
    case none =>
    cases sg
    case true =>
      left
      simp only [splitStep]
      norm_num
      split <;> (first | rfl | (split <;> rfl))
    case false =>
    cases dbl
    case true =>
      left
      simp only [splitStep]
      norm_num
      split <;> (first | rfl | (split <;> rfl))
    case false =>
    simp only [splitStep]
    norm_num
    split
    · left; rfl
    · left; rfl
    · split
      · left; rfl
      · simp only [splitStepNormal]
        split
        · left; rfl
        · split
          · left; rfl
          · split
            case isTrue hsemi =>
              split
              case isTrue hempty => left; simp
              case isFalse hne =>
                right
                subst hsemi
                simp [hne]
            case isFalse hsemi => left; rfl

theorem finalizeSplit_good (s : SplitSt)
    (h : ∀ st ∈ s.statements, goodStmt st) :
    ∀ st ∈ finalizeSplit s, goodStmt st := by
  unfold finalizeSplit
  split
  · exact h
  · intro st hst
    rcases List.mem_append.mp hst with hin | hin
    · exact h st hin
    · rcases List.mem_singleton.mp hin with rfl
      exact ⟨by assumption, pyStrip_idem s.buf⟩

theorem splitStep_statements_good (s : SplitSt) (text : List Char)
    (h : ∀ st ∈ s.statements, goodStmt st) :
    ∀ st ∈ (splitStep s text).1.statements, goodStmt st := by
  rcases splitStep_statements_spec s text with heq | ⟨_, _, _, _, _, _, hne, heq⟩
  · rw [heq]; exact h
  · rw [heq]
    intro st hst
    rcases List.mem_append.mp hst with hin | hin
    · exact h st hin
    · rcases List.mem_singleton.mp hin with rfl
      exact ⟨hne, pyStrip_idem s.buf⟩

theorem splitLoop_good (fuel : Nat) (s : SplitSt) (text : List Char)
    (h : ∀ st ∈ s.statements, goodStmt st) :
    ∀ st ∈ splitLoop fuel s text, goodStmt st := by
  induction fuel generalizing s text with
  | zero =>
    cases text with
    | nil => exact finalizeSplit_good s h
    | cons ch rest => exact finalizeSplit_good s h
  | succ fuel ih =>
    cases text with
    | nil => exact finalizeSplit_good s h
    | cons ch rest =>
      exact ih _ _ (splitStep_statements_good s (ch :: rest) h)

theorem splitLoop_eq_finalize (fuel : Nat) (s : SplitSt) (text : List Char) :
    splitLoop fuel s text = finalizeSplit (splitRun fuel s text) := by
  induction fuel generalizing s text with
  | zero => cases text <;> rfl
  | succ fuel ih =>
    cases text with
    | nil => rfl
    | cons ch rest => exact ih _ _

/-- C1: the splitter creates statement boundaries only at semicolons seen
in Normal lexical mode: while any quoting, comment, or dollar-quoted mode
is active a scanning step never changes the emitted statement list; and
the two quoted examples each split into exactly one statement, with the
single-quoted semicolon and the dollar-quoted body (delimiters included)
preserved verbatim. -/
theorem C1_split_only_normal_semicolons :
    (∀ (s : SplitSt) (text : List Char),
      (s.in_single = true ∨ s.in_double = true ∨ s.in_line_comment = true ∨
        s.in_block_comment = true ∨ s.in_dollar ≠ none) →
      (splitStep s text).1.statements = s.statements) ∧
    _split_sql_statements (String.mk sqlQuoteEx) = [String.mk sqlQuoteOut] ∧
    _split_sql_statements sqlDollarEx = [sqlDollarOut] := by
  refine ⟨?_, by decide, by decide⟩
  intro s text h
  rcases splitStep_statements_spec s text with heq | ⟨h1, h2, h3, h4, h5, _, _, _⟩
  · exact heq
  · rcases h with hh | hh | hh | hh | hh <;> simp_all

theorem C1_split_only_normal_semicolons_witness :
    (splitStep ⟨false, false, true, false, none, [], []⟩ [';']).1.statements = [] :=
  C1_split_only_normal_semicolons.1 ⟨false, false, true, false, none, [], []⟩ [';']
    (Or.inr (Or.inr (Or.inl rfl)))

/-- C7: every statement produced by the splitter is nonempty and equal to
its own whitespace trim; whitespace-only fragments are never emitted. -/
theorem C7_split_statements_nonempty_trimmed (text : String) (st : String)
    (h : st ∈ _split_sql_statements text) :
    st ≠ "" ∧ pyStripStr st = st := by
  unfold _split_sql_statements at h
  rcases List.mem_map.mp h with ⟨l, hl, rfl⟩
  have hg : goodStmt l := splitLoop_good _ _ _ (by intro u hu; cases hu) l hl
  constructor
  · intro hempty
    apply hg.1
    have hdata : (String.mk l).data = ("" : String).data := by rw [hempty]
    simpa using hdata
  · unfold pyStripStr
    have hlist : (String.mk l).toList = l := rfl
    rw [hlist, hg.2]

theorem C7_split_statements_nonempty_trimmed_witness :
    stmtSimple ≠ "" ∧ pyStripStr stmtSimple = stmtSimple :=
  C7_split_statements_nonempty_trimmed sqlSimpleEx stmtSimple (by decide)

/-- C8: whenever the processed remainder held in the buffer at end of
input does not strip to nothing, the splitter emits its trim as the final
statement, after all statements flushed at Normal-mode semicolons, even
though the remainder has no terminating semicolon. -/
theorem C8_trailing_remainder_emitted (text : String)
    (h : pyStrip (splitRun text.toList.length initSt text.toList).buf ≠ []) :
    _split_sql_statements text =
      ((splitRun text.toList.length initSt text.toList).statements ++
        [pyStrip (splitRun text.toList.length initSt text.toList).buf]).map
        (fun l => String.mk l) := by
  unfold _split_sql_statements
  rw [splitLoop_eq_finalize]
  unfold finalizeSplit
  rw [if_neg h]

theorem C8_trailing_remainder_emitted_witness :
    _split_sql_statements stmtSimple =
      ((splitRun stmtSimple.toList.length initSt stmtSimple.toList).statements ++
        [pyStrip (splitRun stmtSimple.toList.length initSt stmtSimple.toList).buf]).map
        (fun l => String.mk l) :=
  C8_trailing_remainder_emitted stmtSimple (by decide)

/-- C9: comment content never reaches the buffer or the statement list: in
a line comment every character, including the terminating newline, is
dropped; in a block comment every character, including the two-character
close, is dropped; on a comment opener the two opener characters are
dropped and the buffer gains exactly one synthetic space when its last
buffered character is non-whitespace, and is unchanged otherwise; and in
the two end-to-end examples the comment bodies and markers are absent from
the output statements. -/
theorem C9_comments_removed :
    (∀ (s : SplitSt) (ch : Char) (rest : List Char), s.in_line_comment = true →
      splitStep s (ch :: rest) =
        ((if ch = '\n' then { s with in_line_comment := false } else s), rest)) ∧
    (∀ (s : SplitSt) (text : List Char), s.in_line_comment = false →
      s.in_block_comment = true →
      (splitStep s text).1.buf = s.buf ∧
      (splitStep s text).1.statements = s.statements) ∧
    (∀ (s : SplitSt) (rest : List Char),
      s.in_single = false → s.in_double = false → s.in_line_comment = false →
      s.in_block_comment = false → s.in_dollar = none →
      splitStep s ('-' :: '-' :: rest) =
        ({ s with in_line_comment := true, buf := if lastNonSpace s.buf then s.buf ++ [' '] else s.buf }, rest)) ∧
    (∀ (s : SplitSt) (rest : List Char),
      s.in_single = false → s.in_double = false → s.in_line_comment = false →
      s.in_block_comment = false → s.in_dollar = none →
      splitStep s ('/' :: '*' :: rest) =
        ({ s with in_block_comment := true, buf := if lastNonSpace s.buf then s.buf ++ [' '] else s.buf }, rest)) ∧
    _split_sql_statements sqlBlockEx = [sqlBlockOut] ∧
    _split_sql_statements sqlLineEx = [sqlLineOut] := by
  refine ⟨?_, ?_, ?_, ?_, by decide, by decide⟩
  · intro s ch rest h
    obtain ⟨sg, dbl, lc, bc, dl, buf, stmts⟩ := s
    cases lc
    · exact absurd h (by simp)
    · rfl
  · intro s text hl hb
    obtain ⟨sg, dbl, lc, bc, dl, buf, stmts⟩ := s
    cases lc
    · cases bc
      · exact absurd hb (by simp)
      · cases text with
        | nil => exact ⟨rfl, rfl⟩
        | cons ch rest =>
          simp only [splitStep]
          norm_num
          split <;> exact ⟨rfl, rfl⟩
    · exact absurd hl (by simp)
  · intro s rest h1 h2 h3 h4 h5
    obtain ⟨sg, dbl, lc, bc, dl, buf, stmts⟩ := s
    simp only at h1 h2 h3 h4 h5
    subst h1; subst h2; subst h3; subst h4; subst h5
    rfl
  · intro s rest h1 h2 h3 h4 h5
    obtain ⟨sg, dbl, lc, bc, dl, buf, stmts⟩ := s
    simp only at h1 h2 h3 h4 h5
    subst h1; subst h2; subst h3; subst h4; subst h5
    rfl

theorem C9_comments_removed_witness :
    splitStep ⟨false, false, true, false, none, [], []⟩ [';'] =
      (⟨false, false, true, false, none, [], []⟩, []) := by
  have h := C9_comments_removed.1 ⟨false, false, true, false, none, [], []⟩ ';' [] rfl
  simpa using h

/-! Helper lemmas about getField and _add_if_present. -/

theorem getField_append_left {p : JObj} (r : JObj) {key : String} {v : JVal}
    (h : getField p key = some v) : getField (p ++ r) key = some v := by
  induction p with
  | nil => simp [getField] at h
  | cons kv rest ih =>
    obtain ⟨k, w⟩ := kv
    by_cases hk : k = key
    · simp [getField, hk] at h ⊢
      exact h
    · simp [getField, hk] at h ⊢
      exact ih h

theorem getField_append_right {p : JObj} (r : JObj) {key : String}
    (h : getField p key = none) : getField (p ++ r) key = getField r key := by
  induction p with
  | nil => simp [getField]
  | cons kv rest ih =>
    obtain ⟨k, w⟩ := kv
    by_cases hk : k = key
    · simp [getField, hk] at h
    · simp [getField, hk] at h ⊢
      exact ih h

theorem getField_add_if_present (p n : JObj) (k ok q : String) :
    getField (_add_if_present p n k ok) q =
      match getField p q with
      | some v => some v
      | none => if ok = q then presentVal (getField n k) else none := by
  unfold _add_if_present
  cases hn : getField n k with
  | none =>
    cases hp : getField p q <;> simp [presentVal, hp]
  | some w =>
    cases w with
    | null => cases hp : getField p q <;> simp [presentVal, hp]
    | bool b =>
      cases hp : getField p q with
      | none => rw [getField_append_right _ hp]; simp [presentVal, getField]
      | some v => rw [getField_append_left _ hp]
    | num x =>
      cases hp : getField p q with
      | none => rw [getField_append_right _ hp]; simp [presentVal, getField]
      | some v => rw [getField_append_left _ hp]
    | str x =>
      cases hp : getField p q with
      | none => rw [getField_append_right _ hp]; simp [presentVal, getField]
      | some v => rw [getField_append_left _ hp]
    | arr l =>
      cases hp : getField p q with
      | none => rw [getField_append_right _ hp]; simp [presentVal, getField]
      | some v => rw [getField_append_left _ hp]
    | obj fs =>
      cases hp : getField p q with
      | none => rw [getField_append_right _ hp]; simp [presentVal, getField]
      | some v => rw [getField_append_left _ hp]

/-- C4: an allow-listed field is copied into the output node only when it
is present and non-null in the source node; a missing field, or one whose
value is None, adds nothing to the payload, and in particular a node with
no Filter field yields an output item with no filter field at all. -/
theorem C4_add_if_present_sparse :
    (∀ (payload node : JObj) (key out_key : String),
      getField node key = none → _add_if_present payload node key out_key = payload) ∧
    (∀ (payload node : JObj) (key out_key : String),
      getField node key = some JVal.null →
      _add_if_present payload node key out_key = payload) ∧
    (∀ (payload node : JObj) (key out_key : String) (v : JVal),
      getField node key = some v → v ≠ JVal.null →
      _add_if_present payload node key out_key = payload ++ [(out_key, v)]) ∧
    (∀ (node : JObj) (d : Nat) (key out_key : String),
      (key, out_key) ∈ allowPairs → getField node key = none →
      getField (extractItem node d) out_key = none) := by
  refine ⟨?_, ?_, ?_, ?_⟩
  · intro p n k ok h
    unfold _add_if_present
    rw [h]
  · intro p n k ok h
    unfold _add_if_present
    rw [h]
  · intro p n k ok v h hv
    unfold _add_if_present
    rw [h]
    cases v
    case null => exact absurd rfl hv
    all_goals rfl
  · intro node d key out_key hm h
    fin_cases hm <;>
    simp [extractItem, getField_add_if_present, getField, h, presentVal]

theorem C4_add_if_present_sparse_witness :
    getField (extractItem [] 0) "filter" = none :=
  C4_add_if_present_sparse.2.2.2 [] 0 "Filter" "filter" (by simp [allowPairs]) rfl

theorem extract_length_aux :
    ∀ (n : Nat) (node : JObj), sizeOf node ≤ n → ∀ d : Nat,
      (_extract_plan_nodes node d).length = planSize node := by
  intro n
  induction n with
  | zero =>
    intro node hle d
    cases node <;> simp at hle
  | succ n ih =>
    intro node hle d
    rw [extract_plan_nodes_eq, planSize_eq]
    rw [List.length_cons, List.length_flatten, List.map_map]
    have hmap : ((planChildren node).map (List.length ∘ fun c => _extract_plan_nodes c (d + 1)))
        = (planChildren node).map planSize := by
      apply List.map_congr_left
      intro c hc
      have hsz := planChildren_sizeOf hc
      exact ih c (by omega) (d + 1)
    rw [hmap]
    omega

/-- C2: for a plan whose root object has a dict-valued Plan child, the
distilled plan_nodes are the preorder extraction of that root at depth 0;
extraction lists the node item first and then the extractions of its
children in source order at depth one greater; its length is the total
dict-node count of the subtree; and the first extracted item of a call at
depth d records depth d, so a child item records its parent's depth plus
one. -/
theorem C2_extract_preorder (plan : JObj) (rootfs : JObj)
    (h : getField plan "Plan" = some (JVal.obj rootfs)) :
    getField (_distill_plan plan) "plan_nodes" =
      some (JVal.arr ((_extract_plan_nodes rootfs 0).map JVal.obj)) ∧
    (∀ (node : JObj) (d : Nat),
      _extract_plan_nodes node d =
        extractItem node d ::
          ((planChildren node).map (fun c => _extract_plan_nodes c (d + 1))).flatten) ∧
    (∀ (node : JObj) (d : Nat),
      (_extract_plan_nodes node d).length = planSize node) ∧
    (∀ (node : JObj) (d : Nat),
      (_extract_plan_nodes node d).head? = some (extractItem node d) ∧
      getField (extractItem node d) "depth" = some (JVal.num d)) := by
  refine ⟨?_, extract_plan_nodes_eq, ?_, ?_⟩
  · simp [_distill_plan, h, getField]
  · intro node d
    exact extract_length_aux (sizeOf node) node le_rfl d
  · intro node d
    constructor
    · rw [extract_plan_nodes_eq]
      rfl
    · simp [extractItem, getField_add_if_present, getField]

theorem C2_extract_preorder_witness :
    getField plan0 "Plan" = some (JVal.obj root0) ∧
    getField (_distill_plan plan0) "plan_nodes" =
      some (JVal.arr ((_extract_plan_nodes root0 0).map JVal.obj)) :=
  ⟨rfl, (C2_extract_preorder plan0 root0 rfl).1⟩

/-- C10: the distilled plan has exactly the four keys planning_time_ms,
execution_time_ms, top_actual_rows and plan_nodes, in that order; a
missing top-level Planning Time or Execution Time, or a missing Actual
Rows on the dict root node, yields a present null value; and when the
source has no dict-valued Plan child, plan_nodes is the empty list. -/
theorem C10_distill_top_level (plan : JObj) :
    (_distill_plan plan).map Prod.fst =
      ["planning_time_ms", "execution_time_ms", "top_actual_rows", "plan_nodes"] ∧
    (getField plan "Planning Time" = none →
      getField (_distill_plan plan) "planning_time_ms" = some JVal.null) ∧
    (getField plan "Execution Time" = none →
      getField (_distill_plan plan) "execution_time_ms" = some JVal.null) ∧
    (∀ rootfs : JObj, getField plan "Plan" = some (JVal.obj rootfs) →
      getField rootfs "Actual Rows" = none →
      getField (_distill_plan plan) "top_actual_rows" = some JVal.null) ∧
    ((∀ rootfs : JObj, getField plan "Plan" ≠ some (JVal.obj rootfs)) →
      getField (_distill_plan plan) "plan_nodes" = some (JVal.arr [])) := by
  refine ⟨by simp [_distill_plan], ?_, ?_, ?_, ?_⟩
  · intro h
    simp [_distill_plan, _summarize_plan, h, getField]
  · intro h
    simp [_distill_plan, _summarize_plan, h, getField]
  · intro rootfs h hrows
    simp [_distill_plan, _summarize_plan, h, hrows, getField]
  · intro h
    rcases hp : getField plan "Plan" with _ | v
    · simp [_distill_plan, hp, getField]
    · cases v
      case obj fs => exact absurd hp (h fs)
      all_goals simp [_distill_plan, hp, getField]

theorem C10_distill_top_level_witness :
    getField (_distill_plan []) "planning_time_ms" = some JVal.null :=
  (C10_distill_top_level []).2.1 rfl

/-! Helper lemmas about the runner loop. -/

theorem runLoop_ok_spec (db : Nat → String → Except String JObj)
    (clock : Nat → Rat) :
    ∀ (stmts : List String) (idx : Nat) (files : List (String × JObj))
      (results : List QueryResult) (files' : List (String × JObj))
      (results' : List QueryResult),
      runLoop db clock idx stmts files results = (files', Except.ok results') →
      results'.map QueryResult.query_index =
        results.map QueryResult.query_index ++ List.range' idx stmts.length ∧
      results'.map QueryResult.query = results.map QueryResult.query ++ stmts ∧
      results'.map QueryResult.plan_file =
        results.map QueryResult.plan_file ++
          (List.range' idx stmts.length).map planFileName ∧
      files'.map Prod.fst =
        files.map Prod.fst ++ (List.range' idx stmts.length).map planFileName := by
  intro stmts
  induction stmts with
  | nil =>
    intro idx files results files' results' h
    simp only [runLoop, Prod.mk.injEq] at h
    obtain ⟨rfl, hr⟩ := h
    cases hr
    simp
  | cons q rest ih =>
    intro idx files results files' results' h
    simp only [runLoop] at h
    cases hdb : db idx q with
    | error e =>
      rw [hdb] at h
      simp at h
    | ok raw =>
      rw [hdb] at h
      obtain ⟨h1, h2, h3, h4⟩ := ih (idx + 1) _ _ _ _ h
      rw [h1, h2, h3, h4]
      simp [List.range'_succ]

/-- C6: a successful run yields one QueryResult and one plan artifact per
statement, in input order: the query indices are exactly 1..n increasing,
each result keeps its statement text, results and artifacts both use the
deterministic filename of the statement's 1-based index, and the filename
pads that index with zeros to three digits. -/
theorem C6_success_one_artifact_per_statement
    (db : Nat → String → Except String JObj) (clock : Nat → Rat)
    (stmts : List String) (files : List (String × JObj))
    (results : List QueryResult)
    (h : _run_queries db clock stmts = (files, Except.ok results)) :
    results.length = stmts.length ∧
    files.length = stmts.length ∧
    results.map QueryResult.query_index = List.range' 1 stmts.length ∧
    results.map QueryResult.query = stmts ∧
    results.map QueryResult.plan_file =
      (List.range' 1 stmts.length).map planFileName ∧
    files.map Prod.fst = (List.range' 1 stmts.length).map planFileName ∧
    planFileName 1 = "query_001_plan.json" ∧
    planFileName 12 = "query_012_plan.json" ∧
    planFileName 123 = "query_123_plan.json" := by
  unfold _run_queries at h
  obtain ⟨h1, h2, h3, h4⟩ := runLoop_ok_spec db clock stmts 1 [] [] files results h
  simp only [List.map_nil, List.nil_append] at h1 h2 h3 h4
  refine ⟨?_, ?_, h1, h2, h3, h4, by decide, by decide, by decide⟩
  · have := congrArg List.length h2
    simpa using this
  · have := congrArg List.length h4
    simpa using this

theorem C6_success_one_artifact_per_statement_witness :
    resultsW.map QueryResult.query_index = List.range' 1 1 :=
  (C6_success_one_artifact_per_statement dbOk clock0 [stmtSimple] filesW resultsW
    rfl).2.2.1

theorem runLoop_error_spec (db : Nat → String → Except String JObj)
    (clock : Nat → Rat) :
    ∀ (pre : List String) (idx : Nat) (files : List (String × JObj))
      (results : List QueryResult) (q : String) (post : List String) (e : String),
      (∀ (i : Nat) (hi : i < pre.length),
        ∃ p, db (idx + i) (pre.get ⟨i, hi⟩) = Except.ok p) →
      db (idx + pre.length) q = Except.error e →
      runLoop db clock idx (pre ++ q :: post) files results =
        ((runLoop db clock idx pre files results).1, Except.error e) := by
  intro pre
  induction pre with
  | nil =>
    intro idx files results q post e hpre hq
    simp only [List.length_nil, Nat.add_zero] at hq
    simp only [List.nil_append, runLoop]
    rw [hq]
  | cons p ps ih =>
    intro idx files results q post e hpre hq
    obtain ⟨raw, hraw⟩ := hpre 0 (by simp)
    have hraw2 : db idx p = Except.ok raw := hraw
    simp only [List.cons_append, runLoop]
    rw [hraw2]
    apply ih (idx + 1) _ _ q post e
    · intro i hi
      obtain ⟨w, hw⟩ := hpre (i + 1) (by simpa using Nat.succ_lt_succ hi)
      refine ⟨w, ?_⟩
      rw [← hw]
      congr 1
      omega
    · rw [← hq]
      congr 1
      simp
      omega

/-- C5: a database failure at any statement aborts the run immediately:
the runner propagates the error, the statements after the failing one are
never executed (the run equals the run on the input truncated at the
failing statement), the artifacts on disk are exactly those written for
the successful prefix, and at the top level no summary is produced while
those prefix artifacts remain. -/
theorem C5_failure_aborts_run (db : Nat → String → Except String JObj)
    (clock : Nat → Rat) (pre post : List String) (q : String) (e : String)
    (hpre : ∀ (i : Nat) (hi : i < pre.length),
      ∃ p, db (1 + i) (pre.get ⟨i, hi⟩) = Except.ok p)
    (hq : db (1 + pre.length) q = Except.error e) :
    (_run_queries db clock (pre ++ q :: post)).2 = Except.error e ∧
    _run_queries db clock (pre ++ q :: post) = _run_queries db clock (pre ++ [q]) ∧
    (_run_queries db clock (pre ++ q :: post)).1 = (_run_queries db clock pre).1 ∧
    (∀ text : String, _iter_queries text = pre ++ q :: post →
      (main_model db clock text).summary = none ∧
      (main_model db clock text).failure = some e ∧
      (main_model db clock text).files = (_run_queries db clock pre).1) := by
  have h1 := runLoop_error_spec db clock pre 1 [] [] q post e hpre hq
  have h2 := runLoop_error_spec db clock pre 1 [] [] q [] e hpre hq
  refine ⟨?_, ?_, ?_, ?_⟩
  · unfold _run_queries
    rw [h1]
  · unfold _run_queries
    rw [h1, h2]
  · unfold _run_queries
    rw [h1]
  · intro text htext
    unfold main_model
    rw [htext]
    unfold _run_queries
    rw [h1]
    exact ⟨rfl, rfl, rfl⟩

theorem C5_failure_aborts_run_witness :
    (_run_queries dbFailSecond clock0
      ([stmtSimple] ++ stmtSimple :: [stmtSimple])).2 = Except.error "boom" :=
  (C5_failure_aborts_run dbFailSecond clock0 [stmtSimple] [stmtSimple] stmtSimple
    "boom"
    (by
      intro i hi
      have hz : i = 0 := by
        simp at hi
        omega
      subst hz
      exact ⟨[], rfl⟩)
    rfl).1

/-! Lemmas about the character automaton. -/

theorem runA_tagStart_feed (u : List Char) (hu : ∀ c ∈ u, tagWordChar c = true) :
    ∀ (ws b : List Char) (S : List (List Char)),
    List.foldl stepA ⟨Mode1.normal (Pend1.tagStart ws), b, S⟩ (u ++ ['$']) =
      ⟨Mode1.dollar ('$' :: (ws ++ u) ++ ['$']) 0, b ++ ('$' :: (ws ++ u) ++ ['$']), S⟩ := by
  induction u with
  | nil =>
    intro ws b S
    have hd : tagWordChar '$' = false := by decide
    simp [stepA, hd]
  | cons c cs ih =>
    intro ws b S
    have hc : tagWordChar c = true := hu c (by simp)
    have hrest : ∀ d ∈ cs, tagWordChar d = true := fun d hd => hu d (by simp [hd])
    simp only [List.cons_append, List.foldl_cons]
    rw [show stepA ⟨Mode1.normal (Pend1.tagStart ws), b, S⟩ c
        = ⟨Mode1.normal (Pend1.tagStart (ws ++ [c])), b, S⟩ from by simp [stepA, hc]]
    have h2 := ih hrest (ws ++ [c]) b S
    simpa [List.append_assoc] using h2

theorem runA_dollar_close (tag : List Char) :
    ∀ (n j : Nat) (b : List Char) (S : List (List Char)),
      j < tag.length → tag.length - j = n →
      List.foldl stepA ⟨Mode1.dollar tag j, b, S⟩ (tag.drop j) =
        ⟨Mode1.normal Pend1.none0, b ++ tag, S⟩ := by
  intro n
  induction n with
  | zero =>
    intro j b S hj hn
    omega
  | succ n ih =>
    intro j b S hj hn
    rw [List.drop_eq_getElem_cons hj, List.foldl_cons]
    have hget : tag.get? j = some tag[j] := by
      rw [List.get?_eq_getElem?, List.getElem?_eq_getElem hj]
    by_cases hend : j + 1 = tag.length
    · rw [show stepA ⟨Mode1.dollar tag j, b, S⟩ tag[j]
          = ⟨Mode1.normal Pend1.none0, b ++ tag, S⟩ from by simp [stepA, hget, hend]]
      rw [show tag.drop (j + 1) = [] from List.drop_eq_nil_of_le (by omega)]
      rfl
    · rw [show stepA ⟨Mode1.dollar tag j, b, S⟩ tag[j]
          = ⟨Mode1.dollar tag (j + 1), b, S⟩ from by simp [stepA, hget, hend]]
      exact ih (j + 1) b S (by omega) (by omega)

set_option maxHeartbeats 1600000 in
theorem stepA_shift (S : List (List Char)) (σ : St1) (c : Char) :
    stepA (shiftSt S σ) c = shiftSt S (stepA σ c) := by
  obtain ⟨m, b, T⟩ := σ
  show stepA ⟨m, b, S ++ T⟩ c = shiftSt S (stepA ⟨m, b, T⟩ c)
  cases m with
  | normal p =>
    cases p with
    | none0 =>
      simp only [stepA, normalFresh]
      split_ifs <;> simp [shiftSt, List.append_assoc]
    | dash =>
      simp only [stepA, normalFresh]
      split_ifs <;> simp [shiftSt, List.append_assoc]
    | slash =>
      simp only [stepA, normalFresh]
      split_ifs <;> simp [shiftSt, List.append_assoc]
    | tagStart ws =>
      simp only [stepA, normalFresh]
      split_ifs <;> simp [shiftSt, List.append_assoc]
  | single pq =>
    cases pq <;>
      · simp only [stepA, normalFresh]
        split_ifs <;> simp [shiftSt, List.append_assoc]
  | double pq =>
    cases pq <;>
      · simp only [stepA, normalFresh]
        split_ifs <;> simp [shiftSt, List.append_assoc]
  | lineC =>
    simp only [stepA]
    split_ifs <;> simp [shiftSt]
  | blockC star =>
    cases star <;>
      · simp only [stepA]
        split_ifs <;> simp [shiftSt]
  | dollar tag mm =>
    simp only [stepA]
    split_ifs <;> simp [shiftSt]

theorem runA_shift (S : List (List Char)) (t : List Char) :
    ∀ σ : St1, List.foldl stepA (shiftSt S σ) t = shiftSt S (List.foldl stepA σ t) := by
  induction t with
  | nil => intro σ; rfl
  | cons c cs ih =>
    intro σ
    rw [List.foldl_cons, List.foldl_cons, stepA_shift, ih]

theorem finA_shift (S : List (List Char)) (σ : St1) :
    finA (shiftSt S σ) = S ++ finA σ := by
  obtain ⟨m, b, T⟩ := σ
  unfold shiftSt finA
  simp only
  split_ifs <;> simp

/-! Facts about tags, the dollar regex, and prefixes. -/

theorem tagWordChar_not_special {c : Char} (h : tagWordChar c = true) :
    c ≠ '-' ∧ c ≠ '/' ∧ c ≠ '$' ∧ c ≠ '\'' ∧ c ≠ '"' ∧ c ≠ ';' ∧ c ≠ '*' := by
  refine ⟨?_, ?_, ?_, ?_, ?_, ?_, ?_⟩ <;> (rintro rfl; revert h; decide)

theorem takeWhile_word_full {p : Char → Bool} {ws : List Char}
    (hws : ∀ c ∈ ws, p c = true) {x : Char} (hx : p x = false) (r : List Char) :
    (ws ++ x :: r).takeWhile p = ws := by
  induction ws with
  | nil => simp [List.takeWhile_cons, hx]
  | cons a as ih =>
    have ha : p a = true := hws a (by simp)
    rw [List.cons_append, List.takeWhile_cons_of_pos ha,
      ih (fun c hc => hws c (by simp [hc]))]

theorem take_takeWhile_length (p : Char → Bool) (l : List Char) :
    l.take (l.takeWhile p).length = l.takeWhile p := by
  induction l with
  | nil => rfl
  | cons a as ih =>
    by_cases ha : p a
    · rw [List.takeWhile_cons_of_pos ha, List.length_cons, List.take_succ_cons, ih]
    · rw [List.takeWhile_cons_of_neg ha]
      rfl

theorem dollarMatch_some {t tag : List Char} (h : dollarMatch t = some tag) :
    tagShape tag ∧ ∃ r2, t = tag ++ r2 := by
  cases t with
  | nil => simp [dollarMatch] at h
  | cons c rest =>
    by_cases hc : c = '$'
    · subst hc
      simp only [dollarMatch, if_pos rfl] at h
      rcases hdrop : rest.drop (rest.takeWhile tagWordChar).length with _ | ⟨d, rest2⟩
      · rw [hdrop] at h
        simp at h
      · rw [hdrop] at h
        by_cases hd : d = '$'
        · subst hd
          simp at h
          subst h
          constructor
          · exact ⟨rest.takeWhile tagWordChar,
              fun x hx => List.mem_takeWhile_imp hx, rfl⟩
          · refine ⟨rest2, ?_⟩
            have hsplit : rest = rest.takeWhile tagWordChar ++ '$' :: rest2 := by
              conv_lhs => rw [← List.take_append_drop
                (rest.takeWhile tagWordChar).length rest]
              rw [take_takeWhile_length, hdrop]
            conv_lhs => rw [hsplit]
            simp
        · have hred : (match d :: rest2 with
              | '$' :: _ => some ('$' :: (rest.takeWhile tagWordChar ++ ['$']))
              | _ => (none : Option (List Char))) = none := by
            split
            · simp_all
            · rfl
          rw [hred] at h
          simp at h
    · simp [dollarMatch, hc] at h

theorem dollarMatch_word_cons {ws : List Char}
    (hws : ∀ c ∈ ws, tagWordChar c = true) (r : List Char) :
    dollarMatch ('$' :: ws ++ '$' :: r) = some ('$' :: ws ++ ['$']) := by
  have hd : tagWordChar '$' = false := by decide
  show dollarMatch ('$' :: (ws ++ '$' :: r)) = some ('$' :: ws ++ ['$'])
  simp only [dollarMatch, if_pos rfl]
  rw [takeWhile_word_full hws hd r]
  rw [show (ws ++ '$' :: r).drop ws.length = '$' :: r from by
    simpa using List.drop_left ws ('$' :: r)]
  simp

theorem listStartsWith_decomp {t s : List Char} (h : listStartsWith t s = true) :
    s.take t.length = t ∧ s = t ++ s.drop t.length := by
  induction t generalizing s with
  | nil => simp
  | cons a as ih =>
    cases s with
    | nil => simp [listStartsWith] at h
    | cons b bs =>
      simp only [listStartsWith, Bool.and_eq_true, decide_eq_true_eq] at h
      obtain ⟨rfl, h2⟩ := h
      obtain ⟨h3, h4⟩ := ih h2
      constructor
      · rw [List.length_cons, List.take_succ_cons, h3]
      · rw [List.length_cons, List.drop_succ_cons, List.cons_append, ← h4]

theorem listStartsWith_append_self (t x : List Char) :
    listStartsWith t (t ++ x) = true := by
  induction t with
  | nil => rfl
  | cons a as ih => simp [listStartsWith, ih]

theorem tagShape_facts {tag : List Char} (h : tagShape tag) :
    tag.get? 0 = some '$' ∧ 2 ≤ tag.length ∧
    tag.take (tag.length - 1) ++ ['$'] = tag := by
  obtain ⟨ws, hws, rfl⟩ := h
  refine ⟨rfl, by simp, ?_⟩
  have hlen : ('$' :: ws ++ ['$']).length - 1 = ws.length + 1 := by simp
  rw [hlen]
  rw [show ('$' :: ws ++ ['$']) = ('$' :: ws) ++ ['$'] from by simp]
  rw [List.take_left' (by simp)]

theorem tagShape_interior {tag : List Char} (h : tagShape tag) {m : Nat}
    (h0 : 0 < m) (hlt : m < tag.length - 1) :
    ∃ w, tag.get? m = some w ∧ tagWordChar w = true := by
  obtain ⟨ws, hws, rfl⟩ := h
  obtain ⟨k, rfl⟩ : ∃ k, m = k + 1 := ⟨m - 1, by omega⟩
  have hk : k < ws.length := by
    simp at hlt
    omega
  refine ⟨ws.get ⟨k, hk⟩, ?_, hws _ (List.get_mem ws k hk)⟩
  rw [List.get?_append (by simp; omega), List.get?_cons_succ,
    List.get?_eq_get hk]

/-! Characterizations of the source loop's step in plain Normal mode. -/

theorem splitStep_line_open (B : List Char) (S : List (List Char)) (r2 : List Char) :
    splitStep ⟨false, false, false, false, none, B, S⟩ ('-' :: '-' :: r2) =
      (⟨false, false, true, false, none, synth B, S⟩, r2) := rfl

theorem splitStep_block_open (B : List Char) (S : List (List Char)) (r2 : List Char) :
    splitStep ⟨false, false, false, false, none, B, S⟩ ('/' :: '*' :: r2) =
      (⟨false, false, false, true, none, synth B, S⟩, r2) := rfl

theorem splitStep_dollar_open (B : List Char) (S : List (List Char))
    {c : Char} {r : List Char} {tag : List Char}
    (h : dollarMatch (c :: r) = some tag) :
    splitStep ⟨false, false, false, false, none, B, S⟩ (c :: r) =
      (⟨false, false, false, false, some tag, B ++ tag, S⟩, (c :: r).drop tag.length) := by
  have hc : c = '$' := by
    by_cases hc : c = '$'
    · exact hc
    · simp [dollarMatch, hc] at h
  subst hc
  simp only [splitStep]
  norm_num
  split
  · simp_all
  · simp_all
  · rw [h]

theorem splitStep_normal_fall (B : List Char) (S : List (List Char))
    (c : Char) (r : List Char)
    (h1 : ¬(c = '-' ∧ r.head? = some '-'))
    (h2 : ¬(c = '/' ∧ r.head? = some '*'))
    (h3 : dollarMatch (c :: r) = none) :
    splitStep ⟨false, false, false, false, none, B, S⟩ (c :: r) =
      splitStepNormal ⟨false, false, false, false, none, B, S⟩ c r := by
  simp only [splitStep]
  norm_num
  split
  · rename_i heq
    injection heq with e1 e2
    exact absurd ⟨e1, by rw [e2]; rfl⟩ h1
  · rename_i heq
    injection heq with e1 e2
    exact absurd ⟨e1, by rw [e2]; rfl⟩ h2
  · rw [h3]

theorem splitStepNormal_snd (s : SplitSt) (c : Char) (r : List Char) :
    (splitStepNormal s c r).2 = r := by
  unfold splitStepNormal
  split_ifs <;> rfl

/-- One Normal-mode step of the source loop against the automaton: the
source state has clean flags and buffer B, and the automaton state reaches
normalFresh B S on the next character (after resolving its pending
characters into B). -/
theorem simNormal (B : List Char) (S : List (List Char)) (c : Char) (r : List Char)
    (A₀ : St1) (hA : stepA A₀ c = normalFresh B S c) :
    ∃ k, 1 ≤ k ∧ k ≤ (c :: r).length ∧
      (splitStep ⟨false, false, false, false, none, B, S⟩ (c :: r)).2 = (c :: r).drop k ∧
      Rel (splitStep ⟨false, false, false, false, none, B, S⟩ (c :: r)).1 ((c :: r).drop k)
        (List.foldl stepA A₀ ((c :: r).take k)) := by
  by_cases hc1 : c = '-'
  · subst hc1
    have hA1 : List.foldl stepA A₀ ['-'] = ⟨Mode1.normal Pend1.dash, B, S⟩ := by
      simp [hA, normalFresh]
    cases r with
    | nil =>
      refine ⟨1, by omega, by simp, ?_, ?_⟩
      · rw [splitStep_normal_fall B S _ _ (by simp) (by simp) (by simp [dollarMatch])]
        simp [splitStepNormal_snd]
      · rw [splitStep_normal_fall B S _ _ (by simp) (by simp) (by simp [dollarMatch])]
        rw [show ['-'].take 1 = ['-'] from rfl, hA1]
        rw [show (splitStepNormal ⟨false, false, false, false, none, B, S⟩ '-' []).1
            = ⟨false, false, false, false, none, B ++ ['-'], S⟩ from by
          simp [splitStepNormal]]
        exact Rel.relDash B S _ (by simp)
    | cons c2 r2 =>
      by_cases hc2 : c2 = '-'
      · subst hc2
        refine ⟨2, by omega, by simp, ?_, ?_⟩
        · rw [splitStep_line_open]
          simp [splitStepNormal_snd]
        · rw [splitStep_line_open]
          rw [show ('-' :: '-' :: r2).take 2 = ['-', '-'] from rfl]
          rw [show List.foldl stepA A₀ ['-', '-']
              = stepA (List.foldl stepA A₀ ['-']) '-' from by simp]
          rw [hA1]
          rw [show stepA ⟨Mode1.normal Pend1.dash, B, S⟩ '-'
              = ⟨Mode1.lineC, synth B, S⟩ from by simp [stepA]]
          exact Rel.relLine (synth B) S r2
      · refine ⟨1, by omega, by simp, ?_, ?_⟩
        · rw [splitStep_normal_fall B S _ _ (by simp [hc2]) (by simp)
            (by simp [dollarMatch])]
          simp [splitStepNormal_snd]
        · rw [splitStep_normal_fall B S _ _ (by simp [hc2]) (by simp)
            (by simp [dollarMatch])]
          rw [show ('-' :: c2 :: r2).take 1 = ['-'] from rfl, hA1]
          rw [show (splitStepNormal ⟨false, false, false, false, none, B, S⟩ '-'
              (c2 :: r2)).1 = ⟨false, false, false, false, none, B ++ ['-'], S⟩ from by
            simp [splitStepNormal]]
          exact Rel.relDash B S _ (by simp [hc2])
  by_cases hc2 : c = '/'
  · subst hc2
    have hA1 : List.foldl stepA A₀ ['/'] = ⟨Mode1.normal Pend1.slash, B, S⟩ := by
      simp [hA, normalFresh]
    cases r with
    | nil =>
      refine ⟨1, by omega, by simp, ?_, ?_⟩
      · rw [splitStep_normal_fall B S _ _ (by simp) (by simp) (by simp [dollarMatch])]
        simp [splitStepNormal_snd]
      · rw [splitStep_normal_fall B S _ _ (by simp) (by simp) (by simp [dollarMatch])]
        rw [show ['/'].take 1 = ['/'] from rfl, hA1]
        rw [show (splitStepNormal ⟨false, false, false, false, none, B, S⟩ '/' []).1
            = ⟨false, false, false, false, none, B ++ ['/'], S⟩ from by
          simp [splitStepNormal]]
        exact Rel.relSlash B S _ (by simp)
    | cons c2 r2 =>
      by_cases hst : c2 = '*'
      · subst hst
        refine ⟨2, by omega, by simp, ?_, ?_⟩
        · rw [splitStep_block_open]
          simp [splitStepNormal_snd]
        · rw [splitStep_block_open]
          rw [show ('/' :: '*' :: r2).take 2 = ['/', '*'] from rfl]
          rw [show List.foldl stepA A₀ ['/', '*']
              = stepA (List.foldl stepA A₀ ['/']) '*' from by simp]
          rw [hA1]
          rw [show stepA ⟨Mode1.normal Pend1.slash, B, S⟩ '*'
              = ⟨Mode1.blockC false, synth B, S⟩ from by simp [stepA]]
          exact Rel.relBlock (synth B) S r2
      · refine ⟨1, by omega, by simp, ?_, ?_⟩
        · rw [splitStep_normal_fall B S _ _ (by simp) (by simp [hst])
            (by simp [dollarMatch])]
          simp [splitStepNormal_snd]
        · rw [splitStep_normal_fall B S _ _ (by simp) (by simp [hst])
            (by simp [dollarMatch])]
          rw [show ('/' :: c2 :: r2).take 1 = ['/'] from rfl, hA1]
          rw [show (splitStepNormal ⟨false, false, false, false, none, B, S⟩ '/'
              (c2 :: r2)).1 = ⟨false, false, false, false, none, B ++ ['/'], S⟩ from by
            simp [splitStepNormal]]
          exact Rel.relSlash B S _ (by simp [hst])
  by_cases hc3 : c = '$'
  · subst hc3
    rcases hdm : dollarMatch ('$' :: r) with _ | tag
    · refine ⟨1, by omega, by simp, ?_, ?_⟩
      · rw [splitStep_normal_fall B S _ _ (by simp) (by simp) hdm]
        simp [splitStepNormal_snd]
      · rw [splitStep_normal_fall B S _ _ (by simp) (by simp) hdm]
        rw [show ('$' :: r).take 1 = ['$'] from rfl]
        rw [show List.foldl stepA A₀ ['$'] = ⟨Mode1.normal (Pend1.tagStart []), B, S⟩
            from by simp [hA, normalFresh]]
        rw [show (splitStepNormal ⟨false, false, false, false, none, B, S⟩ '$' r).1
            = ⟨false, false, false, false, none, B ++ ['$'], S⟩ from by
          simp [splitStepNormal]]
        exact Rel.relTag B S r [] (by simp) (by simpa using hdm)
    · obtain ⟨hshape, r2, hsplit⟩ := dollarMatch_some hdm
      obtain ⟨ws, hws, htag⟩ := hshape
      have hlen2 : 2 ≤ tag.length := by rw [htag]; simp
      refine ⟨tag.length, by omega, ?_, ?_, ?_⟩
      · rw [hsplit]
        simp
      · rw [splitStep_dollar_open B S hdm]
      · rw [splitStep_dollar_open B S hdm]
        have htake : ('$' :: r).take tag.length = tag := by
          rw [hsplit, List.take_left]
        have hdrop : ('$' :: r).drop tag.length = r2 := by
          rw [hsplit, List.drop_left]
        rw [htake, hdrop]
        have hfeed : List.foldl stepA A₀ tag = ⟨Mode1.dollar tag 0, B ++ tag, S⟩ := by
          have h0 : tag.get? 0 = some '$' := by rw [htag]; rfl
          rw [htag, List.cons_append, List.foldl_cons]
          rw [show stepA A₀ '$' = ⟨Mode1.normal (Pend1.tagStart []), B, S⟩ from by
            have hc : ('$' : Char) = '$' := rfl
            rw [show ('$' : Char) = '$' from rfl] at hA
            simp [hA, normalFresh]]
          have := runA_tagStart_feed ws hws [] B S
          simpa using this
        rw [hfeed]
        have hrel := Rel.relDollar (B ++ tag) S r2 tag 0 ⟨ws, hws, htag⟩
          (by omega) (by intro h; exact absurd rfl h)
        simpa using hrel
  by_cases hq : c = '\''
  · subst hq
    refine ⟨1, by omega, by simp, ?_, ?_⟩
    · rw [splitStep_normal_fall B S _ _ (by simp) (by simp) (by simp [dollarMatch])]
      simp [splitStepNormal_snd]
    · rw [splitStep_normal_fall B S _ _ (by simp) (by simp) (by simp [dollarMatch])]
      rw [show ('\'' :: r).take 1 = ['\''] from rfl]
      rw [show List.foldl stepA A₀ ['\''] = ⟨Mode1.single false, B ++ ['\''], S⟩
          from by simp [hA, normalFresh]]
      rw [show (splitStepNormal ⟨false, false, false, false, none, B, S⟩ '\'' r).1
          = ⟨true, false, false, false, none, B ++ ['\''], S⟩ from by
        simp [splitStepNormal]]
      exact Rel.relSingle (B ++ ['\'']) S r
  by_cases hqq : c = '"'
  · subst hqq
    refine ⟨1, by omega, by simp, ?_, ?_⟩
    · rw [splitStep_normal_fall B S _ _ (by simp) (by simp) (by simp [dollarMatch])]
      simp [splitStepNormal_snd]
    · rw [splitStep_normal_fall B S _ _ (by simp) (by simp) (by simp [dollarMatch])]
      rw [show ('"' :: r).take 1 = ['"'] from rfl]
      rw [show List.foldl stepA A₀ ['"'] = ⟨Mode1.double false, B ++ ['"'], S⟩
          from by simp [hA, normalFresh]]
      rw [show (splitStepNormal ⟨false, false, false, false, none, B, S⟩ '"' r).1
          = ⟨false, true, false, false, none, B ++ ['"'], S⟩ from by
        simp [splitStepNormal]]
      exact Rel.relDouble (B ++ ['"']) S r
  by_cases hsemi : c = ';'
  · subst hsemi
    refine ⟨1, by omega, by simp, ?_, ?_⟩
    · rw [splitStep_normal_fall B S _ _ (by simp) (by simp) (by simp [dollarMatch])]
      simp [splitStepNormal_snd]
    · rw [splitStep_normal_fall B S _ _ (by simp) (by simp) (by simp [dollarMatch])]
      rw [show (';' :: r).take 1 = [';'] from rfl]
      rw [show List.foldl stepA A₀ [';']
          = ⟨Mode1.normal Pend1.none0, [],
              if pyStrip B = [] then S else S ++ [pyStrip B]⟩
          from by simp [hA, normalFresh]]
      rw [show (splitStepNormal ⟨false, false, false, false, none, B, S⟩ ';' r).1
          = ⟨false, false, false, false, none, [],
              if pyStrip B = [] then S else S ++ [pyStrip B]⟩ from by
        simp [splitStepNormal]]
      exact Rel.relNone [] _ r
  · refine ⟨1, by omega, by simp, ?_, ?_⟩
    · rw [splitStep_normal_fall B S _ _ (by simp [hc1]) (by simp [hc2])
        (by simp [dollarMatch, hc3])]
      simp [splitStepNormal_snd]
    · rw [splitStep_normal_fall B S _ _ (by simp [hc1]) (by simp [hc2])
        (by simp [dollarMatch, hc3])]
      rw [show (c :: r).take 1 = [c] from rfl]
      rw [show List.foldl stepA A₀ [c] = ⟨Mode1.normal Pend1.none0, B ++ [c], S⟩
          from by simp [hA, normalFresh, hc1, hc2, hc3, hq, hqq, hsemi]]
      rw [show (splitStepNormal ⟨false, false, false, false, none, B, S⟩ c r).1
          = ⟨false, false, false, false, none, B ++ [c], S⟩ from by
        simp [splitStepNormal, hq, hqq, hsemi]]
      exact Rel.relNone (B ++ [c]) S r

/-! Characterizations of the source loop's step in the other modes. -/

theorem splitStep_line (b : List Char) (S : List (List Char)) (c : Char)
    (r : List Char) :
    splitStep ⟨false, false, true, false, none, b, S⟩ (c :: r) =
      (if c = '\n' then ⟨false, false, false, false, none, b, S⟩
       else ⟨false, false, true, false, none, b, S⟩, r) := rfl

theorem splitStep_block_close (b : List Char) (S : List (List Char))
    (r2 : List Char) :
    splitStep ⟨false, false, false, true, none, b, S⟩ ('*' :: '/' :: r2) =
      (⟨false, false, false, false, none, b, S⟩, r2) := rfl

theorem splitStep_block_other (b : List Char) (S : List (List Char)) (c : Char)
    (r : List Char) (h : ∀ r2, c :: r ≠ '*' :: '/' :: r2) :
    splitStep ⟨false, false, false, true, none, b, S⟩ (c :: r) =
      (⟨false, false, false, true, none, b, S⟩, r) := by
  simp only [splitStep, Bool.false_eq_true, if_false]
  split
  · rfl
  · rename_i hT
    exact absurd trivial hT

theorem splitStep_single_pair (b : List Char) (S : List (List Char))
    (r2 : List Char) :
    splitStep ⟨true, false, false, false, none, b, S⟩ ('\'' :: '\'' :: r2) =
      (⟨true, false, false, false, none, b ++ ['\'', '\''], S⟩, r2) := rfl

theorem splitStep_single_other (b : List Char) (S : List (List Char)) (c : Char)
    (r : List Char) (h : ∀ r2, c :: r ≠ '\'' :: '\'' :: r2) :
    splitStep ⟨true, false, false, false, none, b, S⟩ (c :: r) =
      (if c = '\'' then ⟨false, false, false, false, none, b ++ [c], S⟩
       else ⟨true, false, false, false, none, b ++ [c], S⟩, r) := by
  simp only [splitStep, Bool.false_eq_true, if_false, Bool.not_true, Bool.not_false,
    Bool.false_and, Bool.true_and, Bool.and_false, Bool.and_true, if_true]
  split <;> rfl

theorem splitStep_double_pair (b : List Char) (S : List (List Char))
    (r2 : List Char) :
    splitStep ⟨false, true, false, false, none, b, S⟩ ('"' :: '"' :: r2) =
      (⟨false, true, false, false, none, b ++ ['"', '"'], S⟩, r2) := rfl

theorem splitStep_double_other (b : List Char) (S : List (List Char)) (c : Char)
    (r : List Char) (h : ∀ r2, c :: r ≠ '"' :: '"' :: r2) :
    splitStep ⟨false, true, false, false, none, b, S⟩ (c :: r) =
      (if c = '"' then ⟨false, false, false, false, none, b ++ [c], S⟩
       else ⟨false, true, false, false, none, b ++ [c], S⟩, r) := by
  simp only [splitStep, Bool.false_eq_true, if_false, Bool.not_true, Bool.not_false,
    Bool.false_and, Bool.true_and, Bool.and_false, Bool.and_true, if_true]
  split <;> rfl

theorem splitStep_dollar_close (b : List Char) (S : List (List Char))
    (tag : List Char) (c : Char) (r : List Char)
    (h : listStartsWith tag (c :: r) = true) :
    splitStep ⟨false, false, false, false, some tag, b, S⟩ (c :: r) =
      (⟨false, false, false, false, none, b ++ tag, S⟩, (c :: r).drop tag.length) := by
  have hrfl : splitStep ⟨false, false, false, false, some tag, b, S⟩ (c :: r) =
      (if listStartsWith tag (c :: r) = true then
        ((⟨false, false, false, false, none, b ++ tag, S⟩ : SplitSt), (c :: r).drop tag.length)
       else ((⟨false, false, false, false, some tag, b ++ [c], S⟩ : SplitSt), r)) := rfl
  rw [hrfl, if_pos h]

theorem splitStep_dollar_cont (b : List Char) (S : List (List Char))
    (tag : List Char) (c : Char) (r : List Char)
    (h : listStartsWith tag (c :: r) = false) :
    splitStep ⟨false, false, false, false, some tag, b, S⟩ (c :: r) =
      (⟨false, false, false, false, some tag, b ++ [c], S⟩, r) := by
  have hrfl : splitStep ⟨false, false, false, false, some tag, b, S⟩ (c :: r) =
      (if listStartsWith tag (c :: r) = true then
        ((⟨false, false, false, false, none, b ++ tag, S⟩ : SplitSt), (c :: r).drop tag.length)
       else ((⟨false, false, false, false, some tag, b ++ [c], S⟩ : SplitSt), r)) := rfl
  rw [hrfl, if_neg (by simp [h])]



/-! One full step of the simulation: from any related pair of states, one
iteration of the source loop (consuming k characters thanks to lookahead)
is matched by k character steps of the automaton. -/

theorem simStep (P : SplitSt) (A : St1) (c : Char) (r : List Char)
    (hrel : Rel P (c :: r) A) :
    ∃ k, 1 ≤ k ∧ k ≤ (c :: r).length ∧
      (splitStep P (c :: r)).2 = (c :: r).drop k ∧
      Rel (splitStep P (c :: r)).1 ((c :: r).drop k)
        (List.foldl stepA A ((c :: r).take k)) := by
  cases hrel with
  | relNone b S =>
    exact simNormal b S c r _ rfl
  | relDash b S rem h =>
    have hc : c ≠ '-' := by simp at h; exact h
    exact simNormal (b ++ ['-']) S c r _ (by simp [stepA, hc])
  | relSlash b S rem h =>
    have hc : c ≠ '*' := by simp at h; exact h
    exact simNormal (b ++ ['/']) S c r _ (by simp [stepA, hc])
  | relTag b S rem ws hws hmatch =>
    by_cases hw : tagWordChar c = true
    · obtain ⟨h1, h2, h3, h4, h5, h6, h7⟩ := tagWordChar_not_special hw
      refine ⟨1, le_refl 1, by simp, ?_, ?_⟩
      · rw [splitStep_normal_fall _ S _ _ (by simp [h1]) (by simp [h2])
          (by simp [dollarMatch, h3])]
        simp [splitStepNormal_snd]
      · rw [splitStep_normal_fall _ S _ _ (by simp [h1]) (by simp [h2])
          (by simp [dollarMatch, h3])]
        rw [show (c :: r).take 1 = [c] from rfl]
        rw [show List.foldl stepA ⟨Mode1.normal (Pend1.tagStart ws), b, S⟩ [c]
            = ⟨Mode1.normal (Pend1.tagStart (ws ++ [c])), b, S⟩ from by
          simp [stepA, hw]]
        rw [show (splitStepNormal ⟨false, false, false, false, none, b ++ '$' :: ws, S⟩
            c r).1 = ⟨false, false, false, false, none, (b ++ '$' :: ws) ++ [c], S⟩
          from by simp [splitStepNormal, h4, h5, h6]]
        have hws2 : ∀ u ∈ ws ++ [c], tagWordChar u = true := by
          intro u hu
          rcases List.mem_append.mp hu with hu | hu
          · exact hws u hu
          · rcases List.mem_singleton.mp hu with rfl
            exact hw
        have hm2 : dollarMatch ('$' :: (ws ++ [c]) ++ r) = none := by
          rw [show '$' :: (ws ++ [c]) ++ r = '$' :: ws ++ (c :: r) from by simp]
          exact hmatch
        have hrel2 := Rel.relTag b S r (ws ++ [c]) hws2 hm2
        simpa using hrel2
    · by_cases hd : c = '$'
      · exfalso
        subst hd
        have hsome := dollarMatch_word_cons hws r
        rw [hmatch] at hsome
        exact Option.noConfusion hsome
      · exact simNormal (b ++ '$' :: ws) S c r _ (by simp [stepA, hw, hd])
  | relSingle b S =>
    by_cases hc : c = '\''
    · subst hc
      cases r with
      | nil =>
        refine ⟨1, le_refl 1, by simp, rfl, ?_⟩
        exact Rel.relSingleP b S [] (by simp)
      | cons c2 r2 =>
        by_cases h2 : c2 = '\''
        · subst h2
          refine ⟨2, by omega, by simp, ?_, ?_⟩
          · rw [splitStep_single_pair]
            rfl
          · rw [splitStep_single_pair]
            exact Rel.relSingle (b ++ ['\'', '\'']) S r2
        · refine ⟨1, le_refl 1, by simp, ?_, ?_⟩
          · rw [splitStep_single_other b S _ _
              (by intro r2' hh; simp at hh; exact h2 hh.1)]
            rfl
          · rw [show splitStep ⟨true, false, false, false, none, b, S⟩
                ('\'' :: c2 :: r2)
                = (⟨false, false, false, false, none, b ++ ['\''], S⟩, c2 :: r2) from by
              rw [splitStep_single_other b S _ _
                (by intro r2' hh; simp at hh; exact h2 hh.1)]
              simp]
            exact Rel.relSingleP b S (c2 :: r2) (by simp [h2])
    · refine ⟨1, le_refl 1, by simp, ?_, ?_⟩
      · rw [splitStep_single_other b S _ _
          (by intro r2' hh; simp at hh; exact hc hh.1)]
        rfl
      · rw [show splitStep ⟨true, false, false, false, none, b, S⟩ (c :: r)
            = (⟨true, false, false, false, none, b ++ [c], S⟩, r) from by
          rw [splitStep_single_other b S _ _
            (by intro r2' hh; simp at hh; exact hc hh.1)]
          simp [hc]]
        rw [show List.foldl stepA ⟨Mode1.single false, b, S⟩ ((c :: r).take 1)
            = ⟨Mode1.single false, b ++ [c], S⟩ from by simp [stepA, hc]]
        exact Rel.relSingle (b ++ [c]) S r
  | relSingleP b S rem h =>
    have hc : c ≠ '\'' := by simp at h; exact h
    exact simNormal (b ++ ['\'']) S c r _ (by simp [stepA, hc])
  | relDouble b S =>
    by_cases hc : c = '"'
    · subst hc
      cases r with
      | nil =>
        refine ⟨1, le_refl 1, by simp, rfl, ?_⟩
        exact Rel.relDoubleP b S [] (by simp)
      | cons c2 r2 =>
        by_cases h2 : c2 = '"'
        · subst h2
          refine ⟨2, by omega, by simp, ?_, ?_⟩
          · rw [splitStep_double_pair]
            rfl
          · rw [splitStep_double_pair]
            exact Rel.relDouble (b ++ ['"', '"']) S r2
        · refine ⟨1, le_refl 1, by simp, ?_, ?_⟩
          · rw [splitStep_double_other b S _ _
              (by intro r2' hh; simp at hh; exact h2 hh.1)]
            rfl
          · rw [show splitStep ⟨false, true, false, false, none, b, S⟩
                ('"' :: c2 :: r2)
                = (⟨false, false, false, false, none, b ++ ['"'], S⟩, c2 :: r2) from by
              rw [splitStep_double_other b S _ _
                (by intro r2' hh; simp at hh; exact h2 hh.1)]
              simp]
            exact Rel.relDoubleP b S (c2 :: r2) (by simp [h2])
    · refine ⟨1, le_refl 1, by simp, ?_, ?_⟩
      · rw [splitStep_double_other b S _ _
          (by intro r2' hh; simp at hh; exact hc hh.1)]
        rfl
      · rw [show splitStep ⟨false, true, false, false, none, b, S⟩ (c :: r)
            = (⟨false, true, false, false, none, b ++ [c], S⟩, r) from by
          rw [splitStep_double_other b S _ _
            (by intro r2' hh; simp at hh; exact hc hh.1)]
          simp [hc]]
        rw [show List.foldl stepA ⟨Mode1.double false, b, S⟩ ((c :: r).take 1)
            = ⟨Mode1.double false, b ++ [c], S⟩ from by simp [stepA, hc]]
        exact Rel.relDouble (b ++ [c]) S r
  | relDoubleP b S rem h =>
    have hc : c ≠ '"' := by simp at h; exact h
    exact simNormal (b ++ ['"']) S c r _ (by simp [stepA, hc])
  | relLine b S =>
    by_cases hc : c = '\n'
    · subst hc
      refine ⟨1, le_refl 1, by simp, rfl, ?_⟩
      exact Rel.relNone b S r
    · refine ⟨1, le_refl 1, by simp, rfl, ?_⟩
      rw [show splitStep ⟨false, false, true, false, none, b, S⟩ (c :: r)
          = (⟨false, false, true, false, none, b, S⟩, r) from by
        rw [splitStep_line]
        simp [hc]]
      rw [show List.foldl stepA ⟨Mode1.lineC, b, S⟩ ((c :: r).take 1)
          = ⟨Mode1.lineC, b, S⟩ from by simp [stepA, hc]]
      exact Rel.relLine b S r
  | relBlock b S =>
    by_cases hc : c = '*'
    · subst hc
      cases r with
      | nil =>
        refine ⟨1, le_refl 1, by simp, ?_, ?_⟩
        · rw [splitStep_block_other b S _ _ (by intro r2' hh; simp at hh)]
          rfl
        · rw [splitStep_block_other b S _ _ (by intro r2' hh; simp at hh)]
          exact Rel.relBlockStar b S [] (by simp)
      | cons c2 r2 =>
        by_cases h2 : c2 = '/'
        · subst h2
          refine ⟨2, by omega, by simp, ?_, ?_⟩
          · rw [splitStep_block_close]
            rfl
          · rw [splitStep_block_close]
            exact Rel.relNone b S r2
        · refine ⟨1, le_refl 1, by simp, ?_, ?_⟩
          · rw [splitStep_block_other b S _ _
              (by intro r2' hh; simp at hh; exact h2 hh.1)]
            rfl
          · rw [splitStep_block_other b S _ _
              (by intro r2' hh; simp at hh; exact h2 hh.1)]
            exact Rel.relBlockStar b S (c2 :: r2) (by simp [h2])
    · refine ⟨1, le_refl 1, by simp, ?_, ?_⟩
      · rw [splitStep_block_other b S _ _
          (by intro r2' hh; simp at hh; exact hc hh.1)]
        rfl
      · rw [splitStep_block_other b S _ _
          (by intro r2' hh; simp at hh; exact hc hh.1)]
        rw [show List.foldl stepA ⟨Mode1.blockC false, b, S⟩ ((c :: r).take 1)
            = ⟨Mode1.blockC false, b, S⟩ from by simp [stepA, hc]]
        exact Rel.relBlock b S r
  | relBlockStar b S rem h =>
    have hc : c ≠ '/' := by simp at h; exact h
    by_cases hs : c = '*'
    · subst hs
      cases r with
      | nil =>
        refine ⟨1, le_refl 1, by simp, ?_, ?_⟩
        · rw [splitStep_block_other b S _ _ (by intro r2' hh; simp at hh)]
          rfl
        · rw [splitStep_block_other b S _ _ (by intro r2' hh; simp at hh)]
          exact Rel.relBlockStar b S [] (by simp)
      | cons c2 r2 =>
        by_cases h2 : c2 = '/'
        · subst h2
          refine ⟨2, by omega, by simp, ?_, ?_⟩
          · rw [splitStep_block_close]
            rfl
          · rw [splitStep_block_close]
            exact Rel.relNone b S r2
        · refine ⟨1, le_refl 1, by simp, ?_, ?_⟩
          · rw [splitStep_block_other b S _ _
              (by intro r2' hh; simp at hh; exact h2 hh.1)]
            rfl
          · rw [splitStep_block_other b S _ _
              (by intro r2' hh; simp at hh; exact h2 hh.1)]
            exact Rel.relBlockStar b S (c2 :: r2) (by simp [h2])
    · refine ⟨1, le_refl 1, by simp, ?_, ?_⟩
      · rw [splitStep_block_other b S _ _
          (by intro r2' hh; simp at hh; exact hs hh.1)]
        rfl
      · rw [splitStep_block_other b S _ _
          (by intro r2' hh; simp at hh; exact hs hh.1)]
        rw [show List.foldl stepA ⟨Mode1.blockC true, b, S⟩ ((c :: r).take 1)
            = ⟨Mode1.blockC false, b, S⟩ from by simp [stepA, hc, hs]]
        exact Rel.relBlock b S r
  | relDollar b S rem tag m hshape hm hpok =>
    obtain ⟨hget0, hlen2, htake1⟩ := tagShape_facts hshape
    have hget0g : tag[0]? = some '$' := by
      rw [← List.get?_eq_getElem?]
      exact hget0
    obtain ⟨ts, htagcons⟩ : ∃ ts, tag = '$' :: ts := by
      cases tag with
      | nil => simp at hget0
      | cons t0 ts =>
        injection hget0 with e
        exact ⟨ts, by rw [e]⟩
    by_cases hstart : listStartsWith tag (c :: r) = true
    · obtain ⟨htake, hdecomp⟩ := listStartsWith_decomp hstart
      have hc : c = '$' := by
        have hs2 := hstart
        rw [htagcons] at hs2
        simp [listStartsWith] at hs2
        exact hs2.1.symm
      subst hc
      obtain ⟨rest, hdec2⟩ : ∃ rest, '$' :: r = tag ++ rest :=
        ⟨('$' :: r).drop tag.length, hdecomp⟩
      have hlenle : tag.length ≤ ('$' :: r).length := by
        rw [hdec2]
        simp
      have hdropeq : ('$' :: r).drop tag.length = rest := by
        rw [hdec2, List.drop_left]
      by_cases hm0 : m = 0
      · subst hm0
        refine ⟨tag.length, by omega, hlenle, ?_, ?_⟩
        · rw [splitStep_dollar_close _ S tag _ r hstart]
        · rw [splitStep_dollar_close _ S tag _ r hstart]
          rw [htake, hdropeq]
          have hfeed := runA_dollar_close tag tag.length 0 b S (by omega) (by omega)
          rw [List.drop_zero] at hfeed
          rw [hfeed]
          have hrel2 := Rel.relNone (b ++ tag) S rest
          simpa using hrel2
      · have hmlt : m < tag.length - 1 := by
          by_contra hge
          have hmeq : m = tag.length - 1 := by omega
          have e1 : tag ++ rest = '$' :: (ts ++ rest) := by
            rw [htagcons]
            rfl
          have hstring : tag.take m ++ ('$' :: r) = tag ++ (ts ++ rest) := by
            rw [hmeq, hdec2, e1, List.append_cons, htake1]
          have hcontra : listStartsWith tag (tag.take m ++ ('$' :: r)) = true := by
            rw [hstring]
            exact listStartsWith_append_self tag _
          rw [hpok hm0] at hcontra
          exact Bool.noConfusion hcontra
        refine ⟨tag.length, by omega, hlenle, ?_, ?_⟩
        · rw [splitStep_dollar_close _ S tag _ r hstart]
        · rw [splitStep_dollar_close _ S tag _ r hstart]
          rw [htake, hdropeq]
          obtain ⟨w, hw1, hw2⟩ := tagShape_interior hshape (by omega) hmlt
          have hw1g : tag[m]? = some w := by
            rw [← List.get?_eq_getElem?]
            exact hw1
          have hwne : w ≠ '$' := (tagWordChar_not_special hw2).2.2.1
          have hstep1 : stepA ⟨Mode1.dollar tag m, b, S⟩ '$'
              = ⟨Mode1.dollar tag 1, b ++ tag.take m, S⟩ := by
            simp [stepA, hw1g, hwne, hget0g]
          have hfeed := runA_dollar_close tag (tag.length - 1) 1 (b ++ tag.take m) S
            (by omega) (by omega)
          have hts : tag.drop 1 = ts := by
            rw [htagcons]
            rfl
          rw [hts] at hfeed
          have harg : List.foldl stepA ⟨Mode1.dollar tag m, b, S⟩ tag
              = List.foldl stepA ⟨Mode1.dollar tag m, b, S⟩ ('$' :: ts) := by
            rw [← htagcons]
          rw [harg, List.foldl_cons, hstep1, hfeed]
          have hrel2 := Rel.relNone (b ++ tag.take m ++ tag) S rest
          simpa [List.append_assoc] using hrel2
    · have hfalse : listStartsWith tag (c :: r) = false :=
        Bool.eq_false_iff.mpr hstart
      refine ⟨1, le_refl 1, by simp, ?_, ?_⟩
      · rw [splitStep_dollar_cont _ S tag c r hfalse]
        rfl
      · rw [splitStep_dollar_cont _ S tag c r hfalse]
        rw [show (c :: r).take 1 = [c] from rfl]
        have hkey : listStartsWith tag (tag.take m ++ (c :: r)) = false := by
          by_cases hm0 : m = 0
          · subst hm0
            simpa using hfalse
          · exact hpok hm0
        by_cases hadv : tag[m]? = some c
        · have hm1 : m + 1 < tag.length := by
            by_contra hge
            have hmeq : m + 1 = tag.length := by omega
            have hsucc : tag.take (m + 1) = tag.take m ++ [c] := by
              rw [List.take_succ, hadv]
              rfl
            have htk : tag.take m ++ [c] = tag := by
              rw [← hsucc, hmeq, List.take_length]
            have hcontra : listStartsWith tag (tag.take m ++ (c :: r)) = true := by
              rw [show tag.take m ++ (c :: r) = (tag.take m ++ [c]) ++ r from by simp,
                htk]
              exact listStartsWith_append_self tag r
            rw [hkey] at hcontra
            exact Bool.noConfusion hcontra
          have hne : m + 1 ≠ tag.length := by omega
          have hstep : stepA ⟨Mode1.dollar tag m, b, S⟩ c
              = ⟨Mode1.dollar tag (m + 1), b, S⟩ := by
            simp [stepA, hadv, hne]
          rw [show List.foldl stepA ⟨Mode1.dollar tag m, b, S⟩ [c]
              = stepA ⟨Mode1.dollar tag m, b, S⟩ c from rfl, hstep]
          have htk1 : tag.take (m + 1) = tag.take m ++ [c] := by
            rw [List.take_succ, hadv]
            rfl
          have hrel2 := Rel.relDollar b S r tag (m + 1) hshape hm1
            (by
              intro _
              rw [htk1]
              simpa [List.append_assoc] using hkey)
          simpa [htk1, List.append_assoc] using hrel2
        · by_cases hres : tag[0]? = some c
          · have hcc : c = '$' := by
              rw [hget0g] at hres
              injection hres with e
              exact e.symm
            have hstep : stepA ⟨Mode1.dollar tag m, b, S⟩ c
                = ⟨Mode1.dollar tag 1, b ++ tag.take m, S⟩ := by
              simp [stepA, hadv, hres]
            rw [show List.foldl stepA ⟨Mode1.dollar tag m, b, S⟩ [c]
                = stepA ⟨Mode1.dollar tag m, b, S⟩ c from rfl, hstep]
            have htk1 : tag.take 1 = [c] := by
              rw [htagcons, hcc]
              rfl
            have hrel2 := Rel.relDollar (b ++ tag.take m) S r tag 1 hshape
              (by omega)
              (by
                intro _
                rw [htk1]
                exact hfalse)
            simpa [htk1, List.append_assoc] using hrel2
          · have hstep : stepA ⟨Mode1.dollar tag m, b, S⟩ c
                = ⟨Mode1.dollar tag 0, b ++ tag.take m ++ [c], S⟩ := by
              simp [stepA, hadv, hres]
            rw [show List.foldl stepA ⟨Mode1.dollar tag m, b, S⟩ [c]
                = stepA ⟨Mode1.dollar tag m, b, S⟩ c from rfl, hstep]
            have hrel2 := Rel.relDollar (b ++ tag.take m ++ [c]) S r tag 0 hshape
              (by omega)
              (fun hzero => absurd rfl hzero)
            simpa [List.append_assoc] using hrel2
/-- At end of input, related states flush to the same statement list. -/
theorem simBase (P : SplitSt) (A : St1) (hrel : Rel P [] A) :
    finalizeSplit P = finA A := by
  cases hrel <;>
    simp [finalizeSplit, finA, heldOf]

/-- The full simulation: with fuel covering the text, the source loop
computes the automaton flush of the text, and the loop's final state is
related to the automaton's final state. -/
theorem simRunFull :
    ∀ (n : Nat) (rem : List Char) (P : SplitSt) (A : St1),
      rem.length ≤ n → Rel P rem A →
      splitLoop n P rem = finA (List.foldl stepA A rem) ∧
      Rel (splitRun n P rem) [] (List.foldl stepA A rem) := by
  intro n
  induction n with
  | zero =>
    intro rem P A hlen hrel
    have hnil : rem = [] := List.eq_nil_of_length_eq_zero (by omega)
    subst hnil
    exact ⟨simBase P A hrel, hrel⟩
  | succ n ih =>
    intro rem P A hlen hrel
    cases rem with
    | nil => exact ⟨simBase P A hrel, hrel⟩
    | cons c r =>
      obtain ⟨k, hk1, hk2, h2, hR⟩ := simStep P A c r hrel
      have hlen2 : ((c :: r).drop k).length ≤ n := by
        simp only [List.length_cons, List.length_drop] at hlen hk2 ⊢
        omega
      obtain ⟨e1, e2⟩ := ih ((c :: r).drop k) (splitStep P (c :: r)).1
        (List.foldl stepA A ((c :: r).take k)) hlen2 hR
      have hsplit : List.foldl stepA (List.foldl stepA A ((c :: r).take k))
          ((c :: r).drop k) = List.foldl stepA A (c :: r) := by
        rw [← List.foldl_append, List.take_append_drop]
      constructor
      · show splitLoop n (splitStep P (c :: r)).1 (splitStep P (c :: r)).2
          = finA (List.foldl stepA A (c :: r))
        rw [h2, e1, hsplit]
      · show Rel (splitRun n (splitStep P (c :: r)).1 (splitStep P (c :: r)).2) []
          (List.foldl stepA A (c :: r))
        rw [h2, ← hsplit]
        exact e2

/-- The source splitter loop computes the automaton flush. -/
theorem split_eq_automaton (text : List Char) :
    splitLoop text.length initSt text
      = finA (List.foldl stepA initA text) :=
  (simRunFull text.length text initSt initA le_rfl (Rel.relNone [] [] text)).1

/-- The source splitter state at end of input is related to the automaton
state at end of input. -/
theorem splitRun_rel (text : List Char) :
    Rel (splitRun text.length initSt text) []
      (List.foldl stepA initA text) :=
  (simRunFull text.length text initSt initA le_rfl (Rel.relNone [] [] text)).2

/-! Facts about whitespace characters and stripping. -/

theorem pyIsSpace_elim {u : Char} (h : pyIsSpace u = true) :
    u = ' ' ∨ u = '\t' ∨ u = '\n' ∨ u = '\r' ∨ u = '\x0b' ∨ u = '\x0c' := by
  have h2 := h
  simp [pyIsSpace] at h2
  tauto

theorem space_facts {u : Char} (h : pyIsSpace u = true) :
    tagWordChar u = false ∧ u ≠ '-' ∧ u ≠ '*' ∧ u ≠ '/' ∧ u ≠ '$' ∧
    u ≠ '\'' ∧ u ≠ '"' ∧ u ≠ ';' := by
  rcases pyIsSpace_elim h with rfl | rfl | rfl | rfl | rfl | rfl <;> decide

theorem dropWhile_spaces_append {w : List Char}
    (hw : ∀ u ∈ w, pyIsSpace u = true) (l : List Char) :
    (w ++ l).dropWhile pyIsSpace = l.dropWhile pyIsSpace := by
  induction w with
  | nil => rfl
  | cons a as ih =>
    rw [List.cons_append, List.dropWhile_cons_of_pos (hw a (by simp))]
    exact ih (fun u hu => hw u (by simp [hu]))

theorem pyStrip_spaces_prepend {w : List Char}
    (hw : ∀ u ∈ w, pyIsSpace u = true) (l : List Char) :
    pyStrip (w ++ l) = pyStrip l := by
  unfold pyStrip
  rw [dropWhile_spaces_append hw]

theorem dropWhile_spaces_nil {w : List Char}
    (hw : ∀ u ∈ w, pyIsSpace u = true) :
    w.dropWhile pyIsSpace = [] := by
  have := dropWhile_spaces_append hw []
  simpa using this

theorem pyStrip_append_spaces {l w : List Char}
    (hw : ∀ u ∈ w, pyIsSpace u = true) :
    pyStrip (l ++ w) = pyStrip l := by
  unfold pyStrip
  rw [List.dropWhile_append]
  by_cases hl : (l.dropWhile pyIsSpace).isEmpty
  · rw [if_pos hl]
    rw [dropWhile_spaces_nil hw]
    rw [List.isEmpty_iff] at hl
    rw [hl]
  · rw [if_neg hl]
    rw [List.reverse_append]
    rw [dropWhile_spaces_append (fun u hu => hw u (List.mem_reverse.mp hu))]

theorem pyStrip_space_concat {l : List Char} {u : Char}
    (hu : pyIsSpace u = true) :
    pyStrip (l ++ [u]) = pyStrip l :=
  pyStrip_append_spaces (by simpa using hu)

theorem pyStrip_decomp (l : List Char) :
    ∃ w w', (∀ u ∈ w, pyIsSpace u = true) ∧ (∀ u ∈ w', pyIsSpace u = true) ∧
      l = w ++ pyStrip l ++ w' := by
  refine ⟨l.takeWhile pyIsSpace,
    (((l.dropWhile pyIsSpace).reverse).takeWhile pyIsSpace).reverse,
    fun u hu => List.mem_takeWhile_imp hu,
    fun u hu => List.mem_takeWhile_imp (List.mem_reverse.mp hu), ?_⟩
  conv_lhs => rw [← List.takeWhile_append_dropWhile (p := pyIsSpace) (l := l)]
  rw [List.append_assoc]
  congr 1
  unfold pyStrip
  conv_lhs => rw [← List.reverse_reverse (l.dropWhile pyIsSpace),
    ← List.takeWhile_append_dropWhile (p := pyIsSpace)
      (l := (l.dropWhile pyIsSpace).reverse)]
  rw [List.reverse_append]

theorem lastNonSpace_concat (l : List Char) (x : Char) :
    lastNonSpace (l ++ [x]) = !pyIsSpace x := by
  unfold lastNonSpace
  rw [List.getLast?_concat]

theorem lastNonSpace_spaces_prepend {w : List Char}
    (hw : ∀ u ∈ w, pyIsSpace u = true) (l : List Char) :
    lastNonSpace (w ++ l) = lastNonSpace l := by
  cases l with
  | nil =>
    rw [List.append_nil]
    unfold lastNonSpace
    cases hwl : w.getLast? with
    | none => rfl
    | some u =>
      have hu : u ∈ w := by
        obtain ⟨hne, hequ⟩ := List.mem_getLast?_eq_getLast (l := w) (x := u) hwl
        rw [hequ]
        exact List.getLast_mem hne
      simp [hw u hu]
  | cons a as =>
    unfold lastNonSpace
    rw [List.getLast?_append_of_ne_nil _ (by simp)]

theorem synth_spaces_prepend {w : List Char}
    (hw : ∀ u ∈ w, pyIsSpace u = true) (l : List Char) :
    synth (w ++ l) = w ++ synth l := by
  unfold synth
  rw [lastNonSpace_spaces_prepend hw]
  split <;> simp

/-! Feeding whitespace to the automaton. -/

theorem foldl_spaces_none0 {w : List Char} (hw : ∀ u ∈ w, pyIsSpace u = true) :
    ∀ (b : List Char) (S : List (List Char)),
    List.foldl stepA ⟨Mode1.normal Pend1.none0, b, S⟩ w
      = ⟨Mode1.normal Pend1.none0, b ++ w, S⟩ := by
  induction w with
  | nil =>
    intro b S
    simp
  | cons u us ih =>
    intro b S
    obtain ⟨hwW, hw2, hw3, hw4, hw5, hw6, hw7, hw8⟩ := space_facts (hw u (by simp))
    rw [List.foldl_cons]
    rw [show stepA ⟨Mode1.normal Pend1.none0, b, S⟩ u
        = ⟨Mode1.normal Pend1.none0, b ++ [u], S⟩ from by
      simp [stepA, normalFresh, hw2, hw3, hw4, hw5, hw6, hw7, hw8]]
    rw [ih (fun v hv => hw v (by simp [hv])) (b ++ [u]) S]
    simp

/-- A semicolon from any resolvable mode flushes the stripped effective
buffer, exactly as the source flush does. -/
theorem stepA_semi_flush {m : Mode1} (hm : resolvable m = true)
    (b : List Char) (S : List (List Char)) :
    stepA ⟨m, b, S⟩ ';' = ⟨Mode1.normal Pend1.none0, [],
      if pyStrip (b ++ heldOf m) = [] then S
      else S ++ [pyStrip (b ++ heldOf m)]⟩ := by
  cases m with
  | normal p =>
    cases p with
    | none0 => simp [stepA, normalFresh, heldOf]
    | dash => simp [stepA, normalFresh, heldOf]
    | slash => simp [stepA, normalFresh, heldOf]
    | tagStart ws =>
      simp [stepA, normalFresh, heldOf,
        show tagWordChar ';' = false from by decide]
  | single pq =>
    cases pq with
    | false => simp [resolvable] at hm
    | true => simp [stepA, normalFresh, heldOf]
  | double pq =>
    cases pq with
    | false => simp [resolvable] at hm
    | true => simp [stepA, normalFresh, heldOf]
  | lineC => simp [resolvable] at hm
  | blockC star => simp [resolvable] at hm
  | dollar tag mm => simp [resolvable] at hm

/-- A dollar tag contains only dollars and word characters, so no
whitespace character can match any of its positions. -/
theorem tag_no_space {tag : List Char} (hsh : tagShape tag) {u : Char}
    (hu : pyIsSpace u = true) : ∀ x : Nat, tag[x]? ≠ some u := by
  obtain ⟨hwW, hw2, hw3, hw4, hw5, hw6, hw7, hw8⟩ := space_facts hu
  obtain ⟨ws, hws, rfl⟩ := hsh
  intro x hx
  have hmem : u ∈ '$' :: ws ++ ['$'] := by
    have := List.getElem?_mem hx
    simpa using this
  simp at hmem
  rcases hmem with rfl | hmem
  · exact hw5 rfl
  · rcases hmem with hmem | rfl
    · rw [hws u hmem] at hwW
      exact Bool.noConfusion hwW
    · exact hw5 rfl

/-- Inverting a run over trailing whitespace that ends in a resolvable
mode with no statements: the starting state was already resolvable, had no
statements, and its stripped effective buffer is unchanged. -/
theorem space_feed_inv :
    ∀ (w : List Char), (∀ u ∈ w, pyIsSpace u = true) →
    ∀ (Z : St1) (m : Mode1) (b : List Char),
      modeOK Z.mode = true →
      (∀ tag mm, Z.mode = Mode1.dollar tag mm → tagShape tag) →
      resolvable m = true →
      List.foldl stepA Z w = ⟨m, b, []⟩ →
      resolvable Z.mode = true ∧ Z.stmts = [] ∧
      pyStrip (effBuf Z) = pyStrip (b ++ heldOf m) := by
  intro w
  induction w with
  | nil =>
    intro _ Z m b hok hsh hm hfin
    rw [List.foldl_nil] at hfin
    subst hfin
    exact ⟨hm, rfl, rfl⟩
  | cons u us ih =>
    intro hw Z m b hok hsh hm hfin
    have huu : pyIsSpace u = true := hw u (by simp)
    obtain ⟨hwW, hw2, hw3, hw4, hw5, hw6, hw7, hw8⟩ := space_facts huu
    have hus : ∀ v ∈ us, pyIsSpace v = true := fun v hv => hw v (by simp [hv])
    rw [List.foldl_cons] at hfin
    obtain ⟨Zm, Zb, ZS⟩ := Z
    cases Zm with
    | normal p =>
      cases p with
      | none0 =>
        have hstep : stepA ⟨Mode1.normal Pend1.none0, Zb, ZS⟩ u
            = ⟨Mode1.normal Pend1.none0, Zb ++ [u], ZS⟩ := by
          simp [stepA, normalFresh, hw2, hw3, hw4, hw5, hw6, hw7, hw8]
        rw [hstep] at hfin
        obtain ⟨h1, h2, h3⟩ := ih hus _ m b (by simp [modeOK])
          (fun tag mm h => Mode1.noConfusion h) hm hfin
        refine ⟨by simp [resolvable], h2, ?_⟩
        rw [show effBuf ⟨Mode1.normal Pend1.none0, Zb ++ [u], ZS⟩
            = Zb ++ [u] from by simp [effBuf, heldOf]] at h3
        rw [show effBuf ⟨Mode1.normal Pend1.none0, Zb, ZS⟩
            = Zb from by simp [effBuf, heldOf]]
        rw [← h3, pyStrip_space_concat huu]
      | dash =>
        have hstep : stepA ⟨Mode1.normal Pend1.dash, Zb, ZS⟩ u
            = ⟨Mode1.normal Pend1.none0, (Zb ++ ['-']) ++ [u], ZS⟩ := by
          simp [stepA, normalFresh, hw2, hw3, hw4, hw5, hw6, hw7, hw8]
        rw [hstep] at hfin
        obtain ⟨h1, h2, h3⟩ := ih hus _ m b (by simp [modeOK])
          (fun tag mm h => Mode1.noConfusion h) hm hfin
        refine ⟨by simp [resolvable], h2, ?_⟩
        rw [show effBuf ⟨Mode1.normal Pend1.none0, (Zb ++ ['-']) ++ [u], ZS⟩
            = (Zb ++ ['-']) ++ [u] from by simp [effBuf, heldOf]] at h3
        rw [show effBuf ⟨Mode1.normal Pend1.dash, Zb, ZS⟩
            = Zb ++ ['-'] from by simp [effBuf, heldOf]]
        rw [← h3, pyStrip_space_concat huu]
      | slash =>
        have hstep : stepA ⟨Mode1.normal Pend1.slash, Zb, ZS⟩ u
            = ⟨Mode1.normal Pend1.none0, (Zb ++ ['/']) ++ [u], ZS⟩ := by
          simp [stepA, normalFresh, hw2, hw3, hw4, hw5, hw6, hw7, hw8]
        rw [hstep] at hfin
        obtain ⟨h1, h2, h3⟩ := ih hus _ m b (by simp [modeOK])
          (fun tag mm h => Mode1.noConfusion h) hm hfin
        refine ⟨by simp [resolvable], h2, ?_⟩
        rw [show effBuf ⟨Mode1.normal Pend1.none0, (Zb ++ ['/']) ++ [u], ZS⟩
            = (Zb ++ ['/']) ++ [u] from by simp [effBuf, heldOf]] at h3
        rw [show effBuf ⟨Mode1.normal Pend1.slash, Zb, ZS⟩
            = Zb ++ ['/'] from by simp [effBuf, heldOf]]
        rw [← h3, pyStrip_space_concat huu]
      | tagStart ws =>
        have hstep : stepA ⟨Mode1.normal (Pend1.tagStart ws), Zb, ZS⟩ u
            = ⟨Mode1.normal Pend1.none0, (Zb ++ '$' :: ws) ++ [u], ZS⟩ := by
          simp [stepA, normalFresh, hwW, hw2, hw3, hw4, hw5, hw6, hw7, hw8]
        rw [hstep] at hfin
        obtain ⟨h1, h2, h3⟩ := ih hus _ m b (by simp [modeOK])
          (fun tag mm h => Mode1.noConfusion h) hm hfin
        refine ⟨by simp [resolvable], h2, ?_⟩
        rw [show effBuf ⟨Mode1.normal Pend1.none0, (Zb ++ '$' :: ws) ++ [u], ZS⟩
            = (Zb ++ '$' :: ws) ++ [u] from by simp [effBuf, heldOf]] at h3
        rw [show effBuf ⟨Mode1.normal (Pend1.tagStart ws), Zb, ZS⟩
            = Zb ++ '$' :: ws from by simp [effBuf, heldOf]]
        rw [← h3, pyStrip_space_concat huu]
    | single pq =>
      cases pq with
      | false =>
        have hstep : stepA ⟨Mode1.single false, Zb, ZS⟩ u
            = ⟨Mode1.single false, Zb ++ [u], ZS⟩ := by
          simp [stepA, hw6]
        rw [hstep] at hfin
        obtain ⟨h1, h2, h3⟩ := ih hus _ m b (by simp [modeOK])
          (fun tag mm h => Mode1.noConfusion h) hm hfin
        simp [resolvable] at h1
      | true =>
        have hstep : stepA ⟨Mode1.single true, Zb, ZS⟩ u
            = ⟨Mode1.normal Pend1.none0, (Zb ++ ['\'']) ++ [u], ZS⟩ := by
          simp [stepA, normalFresh, hw2, hw3, hw4, hw5, hw6, hw7, hw8]
        rw [hstep] at hfin
        obtain ⟨h1, h2, h3⟩ := ih hus _ m b (by simp [modeOK])
          (fun tag mm h => Mode1.noConfusion h) hm hfin
        refine ⟨by simp [resolvable], h2, ?_⟩
        rw [show effBuf ⟨Mode1.normal Pend1.none0, (Zb ++ ['\'']) ++ [u], ZS⟩
            = (Zb ++ ['\'']) ++ [u] from by simp [effBuf, heldOf]] at h3
        rw [show effBuf ⟨Mode1.single true, Zb, ZS⟩
            = Zb ++ ['\''] from by simp [effBuf, heldOf]]
        rw [← h3, pyStrip_space_concat huu]
    | double pq =>
      cases pq with
      | false =>
        have hstep : stepA ⟨Mode1.double false, Zb, ZS⟩ u
            = ⟨Mode1.double false, Zb ++ [u], ZS⟩ := by
          simp [stepA, hw7]
        rw [hstep] at hfin
        obtain ⟨h1, h2, h3⟩ := ih hus _ m b (by simp [modeOK])
          (fun tag mm h => Mode1.noConfusion h) hm hfin
        simp [resolvable] at h1
      | true =>
        have hstep : stepA ⟨Mode1.double true, Zb, ZS⟩ u
            = ⟨Mode1.normal Pend1.none0, (Zb ++ ['"']) ++ [u], ZS⟩ := by
          simp [stepA, normalFresh, hw2, hw3, hw4, hw5, hw6, hw7, hw8]
        rw [hstep] at hfin
        obtain ⟨h1, h2, h3⟩ := ih hus _ m b (by simp [modeOK])
          (fun tag mm h => Mode1.noConfusion h) hm hfin
        refine ⟨by simp [resolvable], h2, ?_⟩
        rw [show effBuf ⟨Mode1.normal Pend1.none0, (Zb ++ ['"']) ++ [u], ZS⟩
            = (Zb ++ ['"']) ++ [u] from by simp [effBuf, heldOf]] at h3
        rw [show effBuf ⟨Mode1.double true, Zb, ZS⟩
            = Zb ++ ['"'] from by simp [effBuf, heldOf]]
        rw [← h3, pyStrip_space_concat huu]
    | lineC => simp [modeOK] at hok
    | blockC star => simp [modeOK] at hok
    | dollar tag mm =>
      have hshp := hsh tag mm rfl
      have hstep : stepA ⟨Mode1.dollar tag mm, Zb, ZS⟩ u
          = ⟨Mode1.dollar tag 0, Zb ++ tag.take mm ++ [u], ZS⟩ := by
        simp [stepA, tag_no_space hshp huu mm, tag_no_space hshp huu 0]
      rw [hstep] at hfin
      obtain ⟨h1, h2, h3⟩ := ih hus _ m b (by simp [modeOK])
        (by
          intro tag2 mm2 h
          injection h with e1 e2
          rw [← e1]
          exact hshp) hm hfin
      simp [resolvable] at h1

set_option maxHeartbeats 1600000 in
/-- One step preserves the leading-whitespace relation between two
automaton states. -/
theorem stepA_prefix_spaces {w : List Char}
    (hw : ∀ u ∈ w, pyIsSpace u = true) (σ σw : St1) (c : Char)
    (h : σw = σ ∨ σw = ⟨σ.mode, w ++ σ.buf, σ.stmts⟩) :
    stepA σw c = stepA σ c ∨
      stepA σw c = ⟨(stepA σ c).mode, w ++ (stepA σ c).buf, (stepA σ c).stmts⟩ := by
  rcases h with rfl | rfl
  · exact Or.inl rfl
  · obtain ⟨m, b, S⟩ := σ
    cases m with
    | normal p =>
      cases p with
      | none0 =>
        simp only [stepA, normalFresh, List.append_assoc,
          pyStrip_spaces_prepend hw]
        split_ifs <;> simp [List.append_assoc]
      | dash =>
        simp only [stepA, normalFresh, synth, List.append_assoc,
          lastNonSpace_spaces_prepend hw, pyStrip_spaces_prepend hw]
        split_ifs <;> simp [List.append_assoc]
      | slash =>
        simp only [stepA, normalFresh, synth, List.append_assoc,
          lastNonSpace_spaces_prepend hw, pyStrip_spaces_prepend hw]
        split_ifs <;> simp [List.append_assoc]
      | tagStart ws =>
        simp only [stepA, normalFresh, List.append_assoc,
          pyStrip_spaces_prepend hw]
        split_ifs <;> simp [List.append_assoc]
    | single pq =>
      cases pq with
      | false =>
        simp only [stepA]
        split_ifs <;> simp [List.append_assoc]
      | true =>
        simp only [stepA, normalFresh, List.append_assoc,
          pyStrip_spaces_prepend hw]
        split_ifs <;> simp [List.append_assoc]
    | double pq =>
      cases pq with
      | false =>
        simp only [stepA]
        split_ifs <;> simp [List.append_assoc]
      | true =>
        simp only [stepA, normalFresh, List.append_assoc,
          pyStrip_spaces_prepend hw]
        split_ifs <;> simp [List.append_assoc]
    | lineC =>
      simp only [stepA]
      split_ifs <;> simp
    | blockC star =>
      cases star <;>
        · simp only [stepA]
          split_ifs <;> simp
    | dollar tag mm =>
      simp only [stepA]
      split_ifs <;> simp [List.append_assoc]

/-- A whole run preserves the leading-whitespace relation. -/
theorem foldl_prefix_spaces {w : List Char}
    (hw : ∀ u ∈ w, pyIsSpace u = true) :
    ∀ (t : List Char) (σ σw : St1),
    (σw = σ ∨ σw = ⟨σ.mode, w ++ σ.buf, σ.stmts⟩) →
    (List.foldl stepA σw t = List.foldl stepA σ t ∨
      List.foldl stepA σw t = ⟨(List.foldl stepA σ t).mode,
        w ++ (List.foldl stepA σ t).buf, (List.foldl stepA σ t).stmts⟩) := by
  intro t
  induction t with
  | nil =>
    intro σ σw h
    simpa using h
  | cons c cs ih =>
    intro σ σw h
    rw [List.foldl_cons, List.foldl_cons]
    exact ih (stepA σ c) (stepA σw c) (stepA_prefix_spaces hw σ σw c h)

/-! Inversion at a comment opener. -/

theorem tagWord_nonspace {u : Char} (h : tagWordChar u = true) :
    pyIsSpace u = false := by
  by_contra hsp
  rw [Bool.not_eq_false] at hsp
  rw [(space_facts hsp).1] at h
  exact Bool.noConfusion h

theorem lastNonSpace_tagbuf {ws : List Char}
    (hws : ∀ u ∈ ws, tagWordChar u = true) (B : List Char) :
    lastNonSpace (B ++ '$' :: ws) = true := by
  unfold lastNonSpace
  rw [List.getLast?_append_of_ne_nil _ (by simp)]
  cases hl : ws.getLast? with
  | none =>
    rw [List.getLast?_eq_none_iff] at hl
    subst hl
    decide
  | some u =>
    have hu : u ∈ ws := by
      obtain ⟨hne, hequ⟩ := List.mem_getLast?_eq_getLast (l := ws) (x := u) hl
      rw [hequ]
      exact List.getLast_mem hne
    have h2 : ('$' :: ws).getLast? = some u := List.mem_getLast?_cons hl
    rw [h2]
    simp [tagWord_nonspace (hws u hu)]

/-- If one scanning step produced a pending dash or slash with buffer b,
then the same state fed a space instead resolves to b plus that space; and
if b does not end in a non-space character the stepped state was the plain
state over b. -/
theorem resolve_inv (Xm : Mode1) (Xb : List Char) (XS : List (List Char))
    (c₀ : Char) (p : Pend1) (b : List Char) (T : List (List Char))
    (hp : p = Pend1.dash ∨ p = Pend1.slash)
    (hX : ∀ ws, Xm = Mode1.normal (Pend1.tagStart ws) →
      ∀ u ∈ ws, tagWordChar u = true)
    (h : stepA ⟨Xm, Xb, XS⟩ c₀ = ⟨Mode1.normal p, b, T⟩) :
    stepA ⟨Xm, Xb, XS⟩ ' ' = ⟨Mode1.normal Pend1.none0, b ++ [' '], T⟩ ∧
    (lastNonSpace b = false →
      (⟨Xm, Xb, XS⟩ : St1) = ⟨Mode1.normal Pend1.none0, b, T⟩) := by
  cases Xm with
  | normal q =>
    cases q with
    | none0 =>
      rw [show stepA ⟨Mode1.normal Pend1.none0, Xb, XS⟩ c₀
          = normalFresh Xb XS c₀ from rfl] at h
      unfold normalFresh at h
      split_ifs at h with h1 h2 h3 h4 h5 h6 h7
      · rw [St1.mk.injEq] at h
        obtain ⟨e1, e2, e3⟩ := h
        subst e2
        subst e3
        exact ⟨by simp [stepA, normalFresh], fun _ => rfl⟩
      · rw [St1.mk.injEq] at h
        obtain ⟨e1, e2, e3⟩ := h
        subst e2
        subst e3
        exact ⟨by simp [stepA, normalFresh], fun _ => rfl⟩
      · rcases hp with rfl | rfl <;> simp at h
      · rcases hp with rfl | rfl <;> simp at h
      · rcases hp with rfl | rfl <;> simp at h
      · rcases hp with rfl | rfl <;> simp at h
      · rcases hp with rfl | rfl <;> simp at h
      · rcases hp with rfl | rfl <;> simp at h
    | dash =>
      rw [show stepA ⟨Mode1.normal Pend1.dash, Xb, XS⟩ c₀
          = if c₀ = '-' then ⟨Mode1.lineC, synth Xb, XS⟩
            else normalFresh (Xb ++ ['-']) XS c₀ from rfl] at h
      split_ifs at h with h1
      · rcases hp with rfl | rfl <;> simp at h
      · unfold normalFresh at h
        split_ifs at h with h2 h3 h4 h5 h6 h7
        · rw [St1.mk.injEq] at h
          obtain ⟨e1, e2, e3⟩ := h
          subst e2
          subst e3
          refine ⟨by simp [stepA, normalFresh], ?_⟩
          intro hln
          rw [lastNonSpace_concat] at hln
          simp [pyIsSpace] at hln
        · rcases hp with rfl | rfl <;> simp at h
        · rcases hp with rfl | rfl <;> simp at h
        · rcases hp with rfl | rfl <;> simp at h
        · rcases hp with rfl | rfl <;> simp at h
        · rcases hp with rfl | rfl <;> simp at h
        · rcases hp with rfl | rfl <;> simp at h
    | slash =>
      rw [show stepA ⟨Mode1.normal Pend1.slash, Xb, XS⟩ c₀
          = if c₀ = '*' then ⟨Mode1.blockC false, synth Xb, XS⟩
            else normalFresh (Xb ++ ['/']) XS c₀ from rfl] at h
      split_ifs at h with h1
      · rcases hp with rfl | rfl <;> simp at h
      · unfold normalFresh at h
        split_ifs at h with h2 h3 h4 h5 h6 h7 h8
        · rw [St1.mk.injEq] at h
          obtain ⟨e1, e2, e3⟩ := h
          subst e2
          subst e3
          refine ⟨by simp [stepA, normalFresh], ?_⟩
          intro hln
          rw [lastNonSpace_concat] at hln
          simp [pyIsSpace] at hln
        · rw [St1.mk.injEq] at h
          obtain ⟨e1, e2, e3⟩ := h
          subst e2
          subst e3
          refine ⟨by simp [stepA, normalFresh], ?_⟩
          intro hln
          rw [lastNonSpace_concat] at hln
          simp [pyIsSpace] at hln
        · rcases hp with rfl | rfl <;> simp at h
        · rcases hp with rfl | rfl <;> simp at h
        · rcases hp with rfl | rfl <;> simp at h
        · rcases hp with rfl | rfl <;> simp at h
        · rcases hp with rfl | rfl <;> simp at h
        · rcases hp with rfl | rfl <;> simp at h
    | tagStart ws =>
      have hws := hX ws rfl
      rw [show stepA ⟨Mode1.normal (Pend1.tagStart ws), Xb, XS⟩ c₀
          = if tagWordChar c₀ then ⟨Mode1.normal (Pend1.tagStart (ws ++ [c₀])), Xb, XS⟩
            else if c₀ = '$' then
              ⟨Mode1.dollar ('$' :: ws ++ ['$']) 0, Xb ++ ('$' :: ws ++ ['$']), XS⟩
            else normalFresh (Xb ++ '$' :: ws) XS c₀ from rfl] at h
      split_ifs at h with h1 h2
      · rcases hp with rfl | rfl <;> simp at h
      · rcases hp with rfl | rfl <;> simp at h
      · unfold normalFresh at h
        split_ifs at h with h3 h4 h5 h6 h7 h8
        · rw [St1.mk.injEq] at h
          obtain ⟨e1, e2, e3⟩ := h
          subst e2
          subst e3
          refine ⟨by simp [stepA, normalFresh,
            show tagWordChar ' ' = false from by decide], ?_⟩
          intro hln
          rw [lastNonSpace_tagbuf hws] at hln
          exact Bool.noConfusion hln
        · rw [St1.mk.injEq] at h
          obtain ⟨e1, e2, e3⟩ := h
          subst e2
          subst e3
          refine ⟨by simp [stepA, normalFresh,
            show tagWordChar ' ' = false from by decide], ?_⟩
          intro hln
          rw [lastNonSpace_tagbuf hws] at hln
          exact Bool.noConfusion hln
        · rcases hp with rfl | rfl <;> simp at h
        · rcases hp with rfl | rfl <;> simp at h
        · rcases hp with rfl | rfl <;> simp at h
        · rcases hp with rfl | rfl <;> simp at h
        · rcases hp with rfl | rfl <;> simp at h
  | single pq =>
    cases pq with
    | false =>
      rw [show stepA ⟨Mode1.single false, Xb, XS⟩ c₀
          = if c₀ = '\'' then ⟨Mode1.single true, Xb, XS⟩
            else ⟨Mode1.single false, Xb ++ [c₀], XS⟩ from rfl] at h
      split_ifs at h <;> (rcases hp with rfl | rfl <;> simp at h)
    | true =>
      rw [show stepA ⟨Mode1.single true, Xb, XS⟩ c₀
          = if c₀ = '\'' then ⟨Mode1.single false, Xb ++ ['\'', '\''], XS⟩
            else normalFresh (Xb ++ ['\'']) XS c₀ from rfl] at h
      split_ifs at h with h1
      · rcases hp with rfl | rfl <;> simp at h
      · unfold normalFresh at h
        split_ifs at h with h2 h3 h4 h5 h6 h7
        · rw [St1.mk.injEq] at h
          obtain ⟨e1, e2, e3⟩ := h
          subst e2
          subst e3
          refine ⟨by simp [stepA, normalFresh], ?_⟩
          intro hln
          rw [lastNonSpace_concat] at hln
          simp [pyIsSpace] at hln
        · rw [St1.mk.injEq] at h
          obtain ⟨e1, e2, e3⟩ := h
          subst e2
          subst e3
          refine ⟨by simp [stepA, normalFresh], ?_⟩
          intro hln
          rw [lastNonSpace_concat] at hln
          simp [pyIsSpace] at hln
        · rcases hp with rfl | rfl <;> simp at h
        · rcases hp with rfl | rfl <;> simp at h
        · rcases hp with rfl | rfl <;> simp at h
        · rcases hp with rfl | rfl <;> simp at h
        · rcases hp with rfl | rfl <;> simp at h
  | double pq =>
    cases pq with
    | false =>
      rw [show stepA ⟨Mode1.double false, Xb, XS⟩ c₀
          = if c₀ = '"' then ⟨Mode1.double true, Xb, XS⟩
            else ⟨Mode1.double false, Xb ++ [c₀], XS⟩ from rfl] at h
      split_ifs at h <;> (rcases hp with rfl | rfl <;> simp at h)
    | true =>
      rw [show stepA ⟨Mode1.double true, Xb, XS⟩ c₀
          = if c₀ = '"' then ⟨Mode1.double false, Xb ++ ['"', '"'], XS⟩
            else normalFresh (Xb ++ ['"']) XS c₀ from rfl] at h
      split_ifs at h with h1
      · rcases hp with rfl | rfl <;> simp at h
      · unfold normalFresh at h
        split_ifs at h with h2 h3 h4 h5 h6 h7
        · rw [St1.mk.injEq] at h
          obtain ⟨e1, e2, e3⟩ := h
          subst e2
          subst e3
          refine ⟨by simp [stepA, normalFresh], ?_⟩
          intro hln
          rw [lastNonSpace_concat] at hln
          simp [pyIsSpace] at hln
        · rw [St1.mk.injEq] at h
          obtain ⟨e1, e2, e3⟩ := h
          subst e2
          subst e3
          refine ⟨by simp [stepA, normalFresh], ?_⟩
          intro hln
          rw [lastNonSpace_concat] at hln
          simp [pyIsSpace] at hln
        · rcases hp with rfl | rfl <;> simp at h
        · rcases hp with rfl | rfl <;> simp at h
        · rcases hp with rfl | rfl <;> simp at h
        · rcases hp with rfl | rfl <;> simp at h
        · rcases hp with rfl | rfl <;> simp at h
  | lineC =>
    rw [show stepA ⟨Mode1.lineC, Xb, XS⟩ c₀
        = if c₀ = '\n' then ⟨Mode1.normal Pend1.none0, Xb, XS⟩
          else ⟨Mode1.lineC, Xb, XS⟩ from rfl] at h
    split_ifs at h <;> (rcases hp with rfl | rfl <;> simp at h)
  | blockC star =>
    cases star with
    | false =>
      rw [show stepA ⟨Mode1.blockC false, Xb, XS⟩ c₀
          = if c₀ = '*' then ⟨Mode1.blockC true, Xb, XS⟩
            else ⟨Mode1.blockC false, Xb, XS⟩ from rfl] at h
      split_ifs at h <;> (rcases hp with rfl | rfl <;> simp at h)
    | true =>
      rw [show stepA ⟨Mode1.blockC true, Xb, XS⟩ c₀
          = if c₀ = '/' then ⟨Mode1.normal Pend1.none0, Xb, XS⟩
            else if c₀ = '*' then ⟨Mode1.blockC true, Xb, XS⟩
            else ⟨Mode1.blockC false, Xb, XS⟩ from rfl] at h
      split_ifs at h <;> (rcases hp with rfl | rfl <;> simp at h)
  | dollar tag mm =>
    rw [show stepA ⟨Mode1.dollar tag mm, Xb, XS⟩ c₀
        = if tag.get? mm = some c₀ then
            (if mm + 1 = tag.length then
              ⟨Mode1.normal Pend1.none0, Xb ++ tag, XS⟩
             else ⟨Mode1.dollar tag (mm + 1), Xb, XS⟩)
          else
            (if tag.get? 0 = some c₀ then ⟨Mode1.dollar tag 1, Xb ++ tag.take mm, XS⟩
             else ⟨Mode1.dollar tag 0, Xb ++ tag.take mm ++ [c₀], XS⟩) from rfl] at h
    split_ifs at h <;> (rcases hp with rfl | rfl <;> simp at h)

/-! The statement-refeed property at a flush point. -/

/-- Stripping the effective buffer of a clean rescanning run yields a
statement that rescans cleanly. -/
theorem strip_refeed {eff : List Char} {m : Mode1} {bf : List Char}
    (hm : resolvable m = true)
    (hOK : ∀ k, stateOK (List.foldl stepA initA (eff.take k)))
    (hrun : List.foldl stepA initA eff = ⟨m, bf, []⟩)
    (heff : eff = bf ++ heldOf m) :
    refeeds (pyStrip eff) := by
  obtain ⟨w, w', hw, hw', hdec⟩ := pyStrip_decomp eff
  obtain ⟨st, hst⟩ : ∃ st, pyStrip eff = st := ⟨_, rfl⟩
  rw [hst] at hdec
  rw [hst]
  have hassoc : (w ++ st) ++ w' = eff := hdec.symm
  have hOKZ : stateOK (List.foldl stepA initA (w ++ st)) := by
    have h1 := hOK (w ++ st).length
    rw [show eff.take (w ++ st).length = w ++ st from by
      rw [← hassoc, List.take_left]] at h1
    exact h1
  have hsplitrun : List.foldl stepA (List.foldl stepA initA (w ++ st)) w'
      = ⟨m, bf, []⟩ := by
    rw [← List.foldl_append, hassoc]
    exact hrun
  obtain ⟨hres, hstmts, hstrip⟩ := space_feed_inv w' hw'
    (List.foldl stepA initA (w ++ st)) m bf hOKZ.1
    (fun tag mm hmode => hOKZ.2.2 tag mm hmode) hm hsplitrun
  have hinit : List.foldl stepA initA w = ⟨Mode1.normal Pend1.none0, w, []⟩ := by
    have h2 := foldl_spaces_none0 hw ([] : List Char) ([] : List (List Char))
    simpa [initA] using h2
  have hZeq : List.foldl stepA initA (w ++ st)
      = List.foldl stepA ⟨Mode1.normal Pend1.none0, w, []⟩ st := by
    rw [List.foldl_append, hinit]
  have hPW := foldl_prefix_spaces hw st initA
    ⟨Mode1.normal Pend1.none0, w, []⟩ (Or.inr (by simp [initA]))
  rw [← hZeq] at hPW
  have hsteff : pyStrip (bf ++ heldOf m) = st := by
    rw [← heff, hst]
  rcases hPW with hcase | hcase
  · refine ⟨(List.foldl stepA initA st).mode,
      (List.foldl stepA initA st).buf, ?_, ?_, ?_⟩
    · rw [← hcase]
      exact hres
    · have hst2 : (List.foldl stepA initA st).stmts = [] := by
        rw [← hcase]
        exact hstmts
      rw [← hst2]
    · rw [← hcase]
      exact hstrip.trans hsteff
  · refine ⟨(List.foldl stepA initA st).mode,
      (List.foldl stepA initA st).buf, ?_, ?_, ?_⟩
    · rw [hcase] at hres
      exact hres
    · have hst2 : (List.foldl stepA initA st).stmts = [] := by
        rw [hcase] at hstmts
        exact hstmts
      rw [← hst2]
    · rw [hcase] at hstrip
      rw [show effBuf ⟨(List.foldl stepA initA st).mode,
          w ++ (List.foldl stepA initA st).buf,
          (List.foldl stepA initA st).stmts⟩
          = w ++ ((List.foldl stepA initA st).buf
            ++ heldOf (List.foldl stepA initA st).mode) from by
        simp [effBuf]] at hstrip
      rw [pyStrip_spaces_prepend hw] at hstrip
      exact hstrip.trans hsteff

/-! Preservation of the rescanning invariant, case helpers. -/

theorem stateOK_of_mode {m : Mode1} (h1 : modeOK m = true)
    (h2 : ∀ ws, m = Mode1.normal (Pend1.tagStart ws) →
      ∀ u ∈ ws, tagWordChar u = true)
    (h3 : ∀ tag mm, m = Mode1.dollar tag mm → tagShape tag)
    (b : List Char) (S : List (List Char)) : stateOK ⟨m, b, S⟩ := ⟨h1, h2, h3⟩

/-- An invariant step that appends the consumed character to the effective
buffer. -/
theorem inv_extend {σ σ2 : St1} (c : Char)
    (hInv : Inv σ)
    (heff : effBuf σ2 = effBuf σ ++ [c])
    (hstmts : σ2.stmts = σ.stmts)
    (hmode : reproM σ2.mode = σ2.mode)
    (hstep : stepA ⟨reproM σ.mode, σ.buf, []⟩ c = ⟨σ2.mode, σ2.buf, []⟩)
    (hnew : stateOK (⟨σ2.mode, σ2.buf, []⟩ : St1)) :
    Inv σ2 := by
  obtain ⟨hOK, hrun, hst⟩ := hInv
  have hone : List.foldl stepA initA (effBuf σ ++ [c])
      = ⟨σ2.mode, σ2.buf, []⟩ := by
    rw [List.foldl_append, hrun]
    exact hstep
  refine ⟨?_, ?_, ?_⟩
  · intro k
    rw [heff]
    by_cases hk : k ≤ (effBuf σ).length
    · rw [List.take_append_of_le_length hk]
      exact hOK k
    · rw [List.take_of_length_le (by simp; omega)]
      rw [hone]
      exact hnew
  · rw [heff, hone, hmode]
  · rw [hstmts]
    exact hst

/-- The flushed state over any list of good statements satisfies the
invariant. -/
theorem inv_flush_state (S2 : List (List Char))
    (h : ∀ st ∈ S2, goodStmt st ∧ refeeds st) :
    Inv ⟨Mode1.normal Pend1.none0, [], S2⟩ := by
  refine ⟨?_, rfl, h⟩
  intro k
  rw [show effBuf ⟨Mode1.normal Pend1.none0, [], S2⟩ = [] from rfl]
  rw [List.take_nil, List.foldl_nil]
  exact stateOK_of_mode (by rfl) (fun ws h2 => by simp at h2)
    (fun tag mm h2 => by simp at h2) [] []

/-- A semicolon step from a resolvable mode preserves the invariant. -/
theorem inv_flush {m : Mode1} {b : List Char} {S : List (List Char)}
    (hInv : Inv ⟨m, b, S⟩) (hm : resolvable m = true) (hmode : reproM m = m) :
    Inv ⟨Mode1.normal Pend1.none0, [],
      if pyStrip (b ++ heldOf m) = [] then S
      else S ++ [pyStrip (b ++ heldOf m)]⟩ := by
  obtain ⟨hOK, hrun, hst⟩ := hInv
  apply inv_flush_state
  intro st hstmem
  by_cases hne : pyStrip (b ++ heldOf m) = []
  · rw [if_pos hne] at hstmem
    exact hst st hstmem
  · rw [if_neg hne] at hstmem
    rcases List.mem_append.mp hstmem with hin | hin
    · exact hst st hin
    · rcases List.mem_singleton.mp hin with rfl
      refine ⟨⟨hne, pyStrip_idem _⟩, ?_⟩
      apply strip_refeed hm hOK _ rfl
      rw [show effBuf ⟨m, b, S⟩ = b ++ heldOf m from rfl] at hrun
      rw [hmode] at hrun
      exact hrun

/-- Changing between modes with empty held lists and the same projection
preserves the invariant. -/
theorem inv_comment_mode {m m2 : Mode1} {b : List Char} {S : List (List Char)}
    (hInv : Inv ⟨m, b, S⟩)
    (hm : heldOf m = []) (hm2 : heldOf m2 = [])
    (hr : reproM m = reproM m2) :
    Inv ⟨m2, b, S⟩ := by
  obtain ⟨hOK, hrun, hst⟩ := hInv
  refine ⟨?_, ?_, hst⟩
  · intro k
    have h2 := hOK k
    rw [show effBuf ⟨m, b, S⟩ = b from by simp [effBuf, hm]] at h2
    rw [show effBuf ⟨m2, b, S⟩ = b from by simp [effBuf, hm2]]
    exact h2
  · rw [show effBuf ⟨m2, b, S⟩ = b from by simp [effBuf, hm2], ← hr]
    rw [show effBuf ⟨m, b, S⟩ = b from by simp [effBuf, hm]] at hrun
    exact hrun

/-- Entering a comment from a pending dash or slash preserves the
invariant: the pending opener is dropped and a synthetic space may be
added. -/
theorem inv_comment {p : Pend1} {b : List Char} {S : List (List Char)}
    {h₀ : Char} (hp : p = Pend1.dash ∨ p = Pend1.slash)
    (hh : heldOf (Mode1.normal p) = [h₀])
    (hInv : Inv ⟨Mode1.normal p, b, S⟩)
    (cm : Mode1) (hcm : reproM cm = Mode1.normal Pend1.none0)
    (hheld : heldOf cm = []) :
    Inv ⟨cm, synth b, S⟩ := by
  obtain ⟨hOK, hrun, hst⟩ := hInv
  rw [show effBuf ⟨Mode1.normal p, b, S⟩ = b ++ [h₀] from by simp [effBuf, hh]]
    at hOK hrun
  rw [show reproM (Mode1.normal p) = Mode1.normal p from by
    rcases hp with rfl | rfl <;> rfl] at hrun
  have hXok : stateOK (List.foldl stepA initA b) := by
    have h2 := hOK b.length
    rw [List.take_left] at h2
    exact h2
  have hXstep : stepA (List.foldl stepA initA b) h₀ = ⟨Mode1.normal p, b, []⟩ := by
    have h3 : List.foldl stepA initA (b ++ [h₀])
        = stepA (List.foldl stepA initA b) h₀ := by
      rw [List.foldl_append]
      rfl
    rw [← h3]
    exact hrun
  obtain ⟨A1, A2⟩ := resolve_inv (List.foldl stepA initA b).mode
    (List.foldl stepA initA b).buf (List.foldl stepA initA b).stmts h₀ p b []
    hp hXok.2.1 hXstep
  have hA1 : stepA (List.foldl stepA initA b) ' '
      = ⟨Mode1.normal Pend1.none0, b ++ [' '], []⟩ := A1
  have hfeed : List.foldl stepA initA (b ++ [' '])
      = ⟨Mode1.normal Pend1.none0, b ++ [' '], []⟩ := by
    rw [List.foldl_append]
    exact hA1
  refine ⟨?_, ?_, hst⟩
  · intro k
    rw [show effBuf ⟨cm, synth b, S⟩ = synth b from by simp [effBuf, hheld]]
    unfold synth
    by_cases hlast : lastNonSpace b
    · rw [if_pos hlast]
      by_cases hk : k ≤ b.length
      · rw [List.take_append_of_le_length hk]
        have h5 := hOK k
        rw [List.take_append_of_le_length hk] at h5
        exact h5
      · rw [List.take_of_length_le (by simp; omega)]
        rw [hfeed]
        exact stateOK_of_mode (by rfl) (fun ws h2 => by simp at h2)
          (fun tag mm h2 => by simp at h2) _ _
    · rw [if_neg hlast]
      have hXeq : List.foldl stepA initA b
          = ⟨Mode1.normal Pend1.none0, b, []⟩ := A2 (Bool.eq_false_iff.mpr hlast)
      by_cases hk : k ≤ b.length
      · rw [show b.take k = (b ++ [h₀]).take k from
          (List.take_append_of_le_length hk).symm]
        exact hOK k
      · rw [List.take_of_length_le (by omega)]
        rw [hXeq]
        exact stateOK_of_mode (by rfl) (fun ws h2 => by simp at h2)
          (fun tag mm h2 => by simp at h2) _ _
  · rw [show effBuf ⟨cm, synth b, S⟩ = synth b from by simp [effBuf, hheld], hcm]
    unfold synth
    by_cases hlast : lastNonSpace b
    · rw [if_pos hlast]
      exact hfeed
    · rw [if_neg hlast]
      exact A2 (Bool.eq_false_iff.mpr hlast)

set_option maxHeartbeats 1600000 in
/-- One automaton step preserves the rescanning invariant. -/
theorem invStep {σ : St1} (hInv : Inv σ) (c : Char) : Inv (stepA σ c) := by
  obtain ⟨m, b, S⟩ := σ
  have hfull : stateOK (⟨reproM m, b, []⟩ : St1) := by
    have h2 := hInv.1 (effBuf ⟨m, b, S⟩).length
    rw [List.take_length, hInv.2.1] at h2
    exact h2
  cases m with
  | normal p =>
    cases p with
    | none0 =>
      by_cases h6 : c = ';'
      · subst h6
        rw [stepA_semi_flush (by rfl) b S]
        exact inv_flush hInv (by rfl) (by rfl)
      · rw [show stepA ⟨Mode1.normal Pend1.none0, b, S⟩ c = normalFresh b S c
          from rfl]
        unfold normalFresh
        split_ifs with h1 h2 h3 h4 h5
        · subst h1
          exact inv_extend '-' hInv (by simp [effBuf, heldOf]) rfl rfl rfl
            (stateOK_of_mode (by rfl) (fun ws h => by simp at h)
              (fun t mm h => by simp at h) _ _)
        · subst h2
          exact inv_extend '/' hInv (by simp [effBuf, heldOf]) rfl rfl rfl
            (stateOK_of_mode (by rfl) (fun ws h => by simp at h)
              (fun t mm h => by simp at h) _ _)
        · subst h3
          exact inv_extend '$' hInv (by simp [effBuf, heldOf]) rfl rfl rfl
            (stateOK_of_mode (by rfl)
              (fun ws h => by
                simp at h
                subst h
                intro u hu
                simp at hu)
              (fun t mm h => by simp at h) _ _)
        · subst h4
          exact inv_extend '\'' hInv (by simp [effBuf, heldOf]) rfl rfl rfl
            (stateOK_of_mode (by rfl) (fun ws h => by simp at h)
              (fun t mm h => by simp at h) _ _)
        · subst h5
          exact inv_extend '"' hInv (by simp [effBuf, heldOf]) rfl rfl rfl
            (stateOK_of_mode (by rfl) (fun ws h => by simp at h)
              (fun t mm h => by simp at h) _ _)
        · exact inv_extend c hInv (by simp [effBuf, heldOf]) rfl rfl
            (by simp [stepA, reproM, normalFresh, h1, h2, h3, h4, h5, h6])
            (stateOK_of_mode (by rfl) (fun ws h => by simp at h)
              (fun t mm h => by simp at h) _ _)
    | dash =>
      by_cases h6 : c = ';'
      · subst h6
        rw [stepA_semi_flush (by rfl) b S]
        exact inv_flush hInv (by rfl) (by rfl)
      · by_cases h1 : c = '-'
        · subst h1
          rw [show stepA ⟨Mode1.normal Pend1.dash, b, S⟩ '-'
              = ⟨Mode1.lineC, synth b, S⟩ from rfl]
          exact inv_comment (Or.inl rfl) rfl hInv Mode1.lineC rfl rfl
        · rw [show stepA ⟨Mode1.normal Pend1.dash, b, S⟩ c
              = normalFresh (b ++ ['-']) S c from by simp [stepA, reproM, h1]]
          unfold normalFresh
          split_ifs with h2 h3 h4 h5
          · subst h2
            exact inv_extend '/' hInv (by simp [effBuf, heldOf]) rfl rfl rfl
              (stateOK_of_mode (by rfl) (fun ws h => by simp at h)
                (fun t mm h => by simp at h) _ _)
          · subst h3
            exact inv_extend '$' hInv (by simp [effBuf, heldOf]) rfl rfl rfl
              (stateOK_of_mode (by rfl)
                (fun ws h => by
                  simp at h
                  subst h
                  intro u hu
                  simp at hu)
                (fun t mm h => by simp at h) _ _)
          · subst h4
            exact inv_extend '\'' hInv (by simp [effBuf, heldOf]) rfl rfl rfl
              (stateOK_of_mode (by rfl) (fun ws h => by simp at h)
                (fun t mm h => by simp at h) _ _)
          · subst h5
            exact inv_extend '"' hInv (by simp [effBuf, heldOf]) rfl rfl rfl
              (stateOK_of_mode (by rfl) (fun ws h => by simp at h)
                (fun t mm h => by simp at h) _ _)
          · exact inv_extend c hInv (by simp [effBuf, heldOf]) rfl rfl
              (by simp [stepA, reproM, normalFresh, h1, h2, h3, h4, h5, h6])
              (stateOK_of_mode (by rfl) (fun ws h => by simp at h)
                (fun t mm h => by simp at h) _ _)
    | slash =>
      by_cases h6 : c = ';'
      · subst h6
        rw [stepA_semi_flush (by rfl) b S]
        exact inv_flush hInv (by rfl) (by rfl)
      · by_cases h0 : c = '*'
        · subst h0
          rw [show stepA ⟨Mode1.normal Pend1.slash, b, S⟩ '*'
              = ⟨Mode1.blockC false, synth b, S⟩ from rfl]
          exact inv_comment (Or.inr rfl) rfl hInv (Mode1.blockC false) rfl rfl
        · rw [show stepA ⟨Mode1.normal Pend1.slash, b, S⟩ c
              = normalFresh (b ++ ['/']) S c from by simp [stepA, reproM, h0]]
          unfold normalFresh
          split_ifs with h1 h2 h3 h4 h5
          · subst h1
            exact inv_extend '-' hInv (by simp [effBuf, heldOf]) rfl rfl rfl
              (stateOK_of_mode (by rfl) (fun ws h => by simp at h)
                (fun t mm h => by simp at h) _ _)
          · subst h2
            exact inv_extend '/' hInv (by simp [effBuf, heldOf]) rfl rfl rfl
              (stateOK_of_mode (by rfl) (fun ws h => by simp at h)
                (fun t mm h => by simp at h) _ _)
          · subst h3
            exact inv_extend '$' hInv (by simp [effBuf, heldOf]) rfl rfl rfl
              (stateOK_of_mode (by rfl)
                (fun ws h => by
                  simp at h
                  subst h
                  intro u hu
                  simp at hu)
                (fun t mm h => by simp at h) _ _)
          · subst h4
            exact inv_extend '\'' hInv (by simp [effBuf, heldOf]) rfl rfl rfl
              (stateOK_of_mode (by rfl) (fun ws h => by simp at h)
                (fun t mm h => by simp at h) _ _)
          · subst h5
            exact inv_extend '"' hInv (by simp [effBuf, heldOf]) rfl rfl rfl
              (stateOK_of_mode (by rfl) (fun ws h => by simp at h)
                (fun t mm h => by simp at h) _ _)
          · exact inv_extend c hInv (by simp [effBuf, heldOf]) rfl rfl
              (by simp [stepA, reproM, normalFresh, h0, h1, h2, h3, h4, h5, h6])
              (stateOK_of_mode (by rfl) (fun ws h => by simp at h)
                (fun t mm h => by simp at h) _ _)
    | tagStart ws =>
      have hws : ∀ u ∈ ws, tagWordChar u = true := hfull.2.1 ws rfl
      by_cases h0 : tagWordChar c = true
      · rw [show stepA ⟨Mode1.normal (Pend1.tagStart ws), b, S⟩ c
            = ⟨Mode1.normal (Pend1.tagStart (ws ++ [c])), b, S⟩ from by
          simp [stepA, reproM, h0]]
        refine inv_extend c hInv (by simp [effBuf, heldOf]) rfl rfl
          (by simp [stepA, reproM, h0])
          (stateOK_of_mode (by rfl) ?_ (fun t mm h => by simp at h) _ _)
        intro ws2 h2
        simp at h2
        subst h2
        intro u hu
        rcases List.mem_append.mp hu with hu | hu
        · exact hws u hu
        · rcases List.mem_singleton.mp hu with rfl
          exact h0
      · by_cases h6 : c = ';'
        · subst h6
          rw [stepA_semi_flush (by rfl) b S]
          exact inv_flush hInv (by rfl) (by rfl)
        · by_cases hd : c = '$'
          · subst hd
            rw [show stepA ⟨Mode1.normal (Pend1.tagStart ws), b, S⟩ '$'
                = ⟨Mode1.dollar ('$' :: ws ++ ['$']) 0,
                    b ++ ('$' :: ws ++ ['$']), S⟩ from by simp [stepA, reproM, h0]]
            refine inv_extend '$' hInv (by simp [effBuf, heldOf]) rfl rfl
              (by simp [stepA, reproM, h0])
              (stateOK_of_mode (by rfl) (fun ws2 h => by simp at h) ?_ _ _)
            intro t mm h
            simp at h
            obtain ⟨e1, e2⟩ := h
            rw [← e1]
            exact ⟨ws, hws, rfl⟩
          · rw [show stepA ⟨Mode1.normal (Pend1.tagStart ws), b, S⟩ c
                = normalFresh (b ++ '$' :: ws) S c from by simp [stepA, reproM, h0, hd]]
            unfold normalFresh
            split_ifs with h1 h2 h4 h5
            · subst h1
              exact inv_extend '-' hInv (by simp [effBuf, heldOf]) rfl rfl
                (by simp [stepA, reproM, normalFresh, h0])
                (stateOK_of_mode (by rfl) (fun ws2 h => by simp at h)
                  (fun t mm h => by simp at h) _ _)
            · subst h2
              exact inv_extend '/' hInv (by simp [effBuf, heldOf]) rfl rfl
                (by simp [stepA, reproM, normalFresh, h0])
                (stateOK_of_mode (by rfl) (fun ws2 h => by simp at h)
                  (fun t mm h => by simp at h) _ _)
            · subst h4
              exact inv_extend '\'' hInv (by simp [effBuf, heldOf]) rfl rfl
                (by simp [stepA, reproM, normalFresh, h0])
                (stateOK_of_mode (by rfl) (fun ws2 h => by simp at h)
                  (fun t mm h => by simp at h) _ _)
            · subst h5
              exact inv_extend '"' hInv (by simp [effBuf, heldOf]) rfl rfl
                (by simp [stepA, reproM, normalFresh, h0])
                (stateOK_of_mode (by rfl) (fun ws2 h => by simp at h)
                  (fun t mm h => by simp at h) _ _)
            · exact inv_extend c hInv (by simp [effBuf, heldOf]) rfl rfl
                (by simp [stepA, reproM, normalFresh, h0, hd, h1, h2, h4, h5, h6])
                (stateOK_of_mode (by rfl) (fun ws2 h => by simp at h)
                  (fun t mm h => by simp at h) _ _)
  | single pq =>
    cases pq with
    | false =>
      rw [show stepA ⟨Mode1.single false, b, S⟩ c
          = if c = '\'' then ⟨Mode1.single true, b, S⟩
            else ⟨Mode1.single false, b ++ [c], S⟩ from rfl]
      split_ifs with h1
      · subst h1
        exact inv_extend '\'' hInv (by simp [effBuf, heldOf]) rfl rfl rfl
          (stateOK_of_mode (by rfl) (fun ws h => by simp at h)
            (fun t mm h => by simp at h) _ _)
      · exact inv_extend c hInv (by simp [effBuf, heldOf]) rfl rfl
          (by simp [stepA, reproM, h1])
          (stateOK_of_mode (by rfl) (fun ws h => by simp at h)
            (fun t mm h => by simp at h) _ _)
    | true =>
      by_cases h6 : c = ';'
      · subst h6
        rw [stepA_semi_flush (by rfl) b S]
        exact inv_flush hInv (by rfl) (by rfl)
      · by_cases h1 : c = '\''
        · subst h1
          rw [show stepA ⟨Mode1.single true, b, S⟩ '\''
              = ⟨Mode1.single false, b ++ ['\'', '\''], S⟩ from rfl]
          exact inv_extend '\'' hInv (by simp [effBuf, heldOf]) rfl rfl rfl
            (stateOK_of_mode (by rfl) (fun ws h => by simp at h)
              (fun t mm h => by simp at h) _ _)
        · rw [show stepA ⟨Mode1.single true, b, S⟩ c
              = normalFresh (b ++ ['\'']) S c from by simp [stepA, reproM, h1]]
          unfold normalFresh
          split_ifs with h2 h3 h4 h5
          · subst h2
            exact inv_extend '-' hInv (by simp [effBuf, heldOf]) rfl rfl rfl
              (stateOK_of_mode (by rfl) (fun ws h => by simp at h)
                (fun t mm h => by simp at h) _ _)
          · subst h3
            exact inv_extend '/' hInv (by simp [effBuf, heldOf]) rfl rfl rfl
              (stateOK_of_mode (by rfl) (fun ws h => by simp at h)
                (fun t mm h => by simp at h) _ _)
          · subst h4
            exact inv_extend '$' hInv (by simp [effBuf, heldOf]) rfl rfl rfl
              (stateOK_of_mode (by rfl)
                (fun ws h => by
                  simp at h
                  subst h
                  intro u hu
                  simp at hu)
                (fun t mm h => by simp at h) _ _)
          · subst h5
            exact inv_extend '"' hInv (by simp [effBuf, heldOf]) rfl rfl rfl
              (stateOK_of_mode (by rfl) (fun ws h => by simp at h)
                (fun t mm h => by simp at h) _ _)
          · exact inv_extend c hInv (by simp [effBuf, heldOf]) rfl rfl
              (by simp [stepA, reproM, normalFresh, h1, h2, h3, h4, h5, h6])
              (stateOK_of_mode (by rfl) (fun ws h => by simp at h)
                (fun t mm h => by simp at h) _ _)
  | double pq =>
    cases pq with
    | false =>
      rw [show stepA ⟨Mode1.double false, b, S⟩ c
          = if c = '"' then ⟨Mode1.double true, b, S⟩
            else ⟨Mode1.double false, b ++ [c], S⟩ from rfl]
      split_ifs with h1
      · subst h1
        exact inv_extend '"' hInv (by simp [effBuf, heldOf]) rfl rfl rfl
          (stateOK_of_mode (by rfl) (fun ws h => by simp at h)
            (fun t mm h => by simp at h) _ _)
      · exact inv_extend c hInv (by simp [effBuf, heldOf]) rfl rfl
          (by simp [stepA, reproM, h1])
          (stateOK_of_mode (by rfl) (fun ws h => by simp at h)
            (fun t mm h => by simp at h) _ _)
    | true =>
      by_cases h6 : c = ';'
      · subst h6
        rw [stepA_semi_flush (by rfl) b S]
        exact inv_flush hInv (by rfl) (by rfl)
      · by_cases h1 : c = '"'
        · subst h1
          rw [show stepA ⟨Mode1.double true, b, S⟩ '"'
              = ⟨Mode1.double false, b ++ ['"', '"'], S⟩ from rfl]
          exact inv_extend '"' hInv (by simp [effBuf, heldOf]) rfl rfl rfl
            (stateOK_of_mode (by rfl) (fun ws h => by simp at h)
              (fun t mm h => by simp at h) _ _)
        · rw [show stepA ⟨Mode1.double true, b, S⟩ c
              = normalFresh (b ++ ['"']) S c from by simp [stepA, reproM, h1]]
          unfold normalFresh
          split_ifs with h2 h3 h4 h5
          · subst h2
            exact inv_extend '-' hInv (by simp [effBuf, heldOf]) rfl rfl rfl
              (stateOK_of_mode (by rfl) (fun ws h => by simp at h)
                (fun t mm h => by simp at h) _ _)
          · subst h3
            exact inv_extend '/' hInv (by simp [effBuf, heldOf]) rfl rfl rfl
              (stateOK_of_mode (by rfl) (fun ws h => by simp at h)
                (fun t mm h => by simp at h) _ _)
          · subst h4
            exact inv_extend '$' hInv (by simp [effBuf, heldOf]) rfl rfl rfl
              (stateOK_of_mode (by rfl)
                (fun ws h => by
                  simp at h
                  subst h
                  intro u hu
                  simp at hu)
                (fun t mm h => by simp at h) _ _)
          · subst h5
            exact inv_extend '\'' hInv (by simp [effBuf, heldOf]) rfl rfl rfl
              (stateOK_of_mode (by rfl) (fun ws h => by simp at h)
                (fun t mm h => by simp at h) _ _)
          · exact inv_extend c hInv (by simp [effBuf, heldOf]) rfl rfl
              (by simp [stepA, reproM, normalFresh, h1, h2, h3, h4, h5, h6])
              (stateOK_of_mode (by rfl) (fun ws h => by simp at h)
                (fun t mm h => by simp at h) _ _)
  | lineC =>
    rw [show stepA ⟨Mode1.lineC, b, S⟩ c
        = if c = '\n' then ⟨Mode1.normal Pend1.none0, b, S⟩
          else ⟨Mode1.lineC, b, S⟩ from rfl]
    split_ifs with h1
    · exact inv_comment_mode hInv rfl rfl rfl
    · exact inv_comment_mode hInv rfl rfl rfl
  | blockC star =>
    cases star with
    | false =>
      rw [show stepA ⟨Mode1.blockC false, b, S⟩ c
          = if c = '*' then ⟨Mode1.blockC true, b, S⟩
            else ⟨Mode1.blockC false, b, S⟩ from rfl]
      split_ifs with h1
      · exact inv_comment_mode hInv rfl rfl rfl
      · exact inv_comment_mode hInv rfl rfl rfl
    | true =>
      rw [show stepA ⟨Mode1.blockC true, b, S⟩ c
          = if c = '/' then ⟨Mode1.normal Pend1.none0, b, S⟩
            else if c = '*' then ⟨Mode1.blockC true, b, S⟩
            else ⟨Mode1.blockC false, b, S⟩ from rfl]
      split_ifs with h1 h2
      · exact inv_comment_mode hInv rfl rfl rfl
      · exact inv_comment_mode hInv rfl rfl rfl
      · exact inv_comment_mode hInv rfl rfl rfl
  | dollar tag mm =>
    have hshape : tagShape tag := hfull.2.2 tag mm rfl
    rw [show stepA ⟨Mode1.dollar tag mm, b, S⟩ c
        = if tag.get? mm = some c then
            (if mm + 1 = tag.length then ⟨Mode1.normal Pend1.none0, b ++ tag, S⟩
             else ⟨Mode1.dollar tag (mm + 1), b, S⟩)
          else
            (if tag.get? 0 = some c then ⟨Mode1.dollar tag 1, b ++ tag.take mm, S⟩
             else ⟨Mode1.dollar tag 0, b ++ tag.take mm ++ [c], S⟩) from rfl]
    split_ifs with h1 h2 h3
    · have h1g : tag[mm]? = some c := by
        rw [← List.get?_eq_getElem?]
        exact h1
      have hsucc : tag.take mm ++ [c] = tag := by
        have h4 : tag.take (mm + 1) = tag.take mm ++ [c] := by
          rw [List.take_succ, h1g]
          rfl
        rw [← h4, h2, List.take_length]
      exact inv_extend c hInv
        (by
          simp only [effBuf, heldOf, List.append_nil, List.append_assoc]
          rw [hsucc])
        rfl rfl (by simp [stepA, reproM, h1, h1g, h2])
        (stateOK_of_mode (by rfl) (fun ws h => by simp at h)
          (fun t m2 h => by simp at h) _ _)
    · have h1g : tag[mm]? = some c := by
        rw [← List.get?_eq_getElem?]
        exact h1
      have hsucc : tag.take (mm + 1) = tag.take mm ++ [c] := by
        rw [List.take_succ, h1g]
        rfl
      refine inv_extend c hInv
        (by
          simp only [effBuf, heldOf, List.append_assoc]
          rw [hsucc])
        rfl rfl (by simp [stepA, reproM, h1, h1g, h2]) ?_
      refine stateOK_of_mode (by rfl) (fun ws h => by simp at h) ?_ _ _
      intro t m2 h
      simp at h
      rw [← h.1]
      exact hshape
    · have h1gn : tag[mm]? ≠ some c := by
        rw [← List.get?_eq_getElem?]
        exact h1
      have h3g : tag[0]? = some c := by
        rw [← List.get?_eq_getElem?]
        exact h3
      have htk1 : tag.take 1 = [c] := by
        cases tag with
        | nil => simp at h3g
        | cons t0 ts =>
          simp at h3g
          rw [h3g]
          rfl
      refine inv_extend c hInv
        (by
          simp only [effBuf, heldOf, List.append_assoc]
          rw [htk1])
        rfl rfl (by simp [stepA, reproM, h1gn, h3g]) ?_
      refine stateOK_of_mode (by rfl) (fun ws h => by simp at h) ?_ _ _
      intro t m2 h
      simp at h
      rw [← h.1]
      exact hshape
    · have h1gn : tag[mm]? ≠ some c := by
        rw [← List.get?_eq_getElem?]
        exact h1
      have h3gn : tag[0]? ≠ some c := by
        rw [← List.get?_eq_getElem?]
        exact h3
      refine inv_extend c hInv
        (by simp [effBuf, heldOf, List.append_assoc])
        rfl rfl (by simp [stepA, reproM, h1gn, h3gn]) ?_
      refine stateOK_of_mode (by rfl) (fun ws h => by simp at h) ?_ _ _
      intro t m2 h
      simp at h
      rw [← h.1]
      exact hshape

end RunQueries
